import Mathlib

set_option maxRecDepth 100000

/-!
Verification of the chunking / vector-index / retrieval core of the
research-assistant backend (`apps/api/src/services/index.py`, together with
the document and evidence routers that consume it).

The Python code is shallowly embedded:

* document text is `List Char`; Python slice / `str.rfind` / `str.strip`
  semantics (including negative-index adjustment) are modelled explicitly;
* the `while` loop of `IndexService._chunk_text` is modelled with explicit
  fuel (`chunkLoop`), so that non-termination of the source loop is the
  statement "no amount of fuel yields a result";
* embedding vectors are `List ℚ`.  The L2 normalisation performed by the
  service (`v / np.linalg.norm(v)`) is an irrational operation; since no
  claim depends on the norm of a stored vector, the normalised vectors are
  taken as the inputs of the model;
* the FAISS flat inner-product index is modelled by exact scoring of every
  stored vector, stable descending top-k selection, and `-1` padding when
  fewer than `top_k` vectors are stored — the documented behaviour of
  `faiss.IndexFlatIP.search`;
* fallible operations (indexing into the metadata list, `reconstruct`)
  return `Option`.
-/

/-- Whitespace as Python `str.strip()` removes it (the `str.isspace()`
characters): the ASCII range `\t`–`\r` and space, the information
separators `\x1c`–`\x1f`, next line `\x85`, no-break space `\xa0`, ogham
space `\x1680`, the en/em spaces `\x2000`–`\x200a`, line and paragraph
separators `\x2028`/`\x2029`, narrow no-break space `\x202f`, medium
mathematical space `\x205f`, and ideographic space `\x3000`. -/
def pyIsSpace (c : Char) : Bool :=
  (decide (0x09 ≤ c.toNat) && decide (c.toNat ≤ 0x0d)) ||
    (decide (0x1c ≤ c.toNat) && decide (c.toNat ≤ 0x1f)) ||
    decide (c.toNat = 0x20) || decide (c.toNat = 0x85) || decide (c.toNat = 0xa0) ||
    decide (c.toNat = 0x1680) ||
    (decide (0x2000 ≤ c.toNat) && decide (c.toNat ≤ 0x200a)) ||
    decide (c.toNat = 0x2028) || decide (c.toNat = 0x2029) ||
    decide (c.toNat = 0x202f) || decide (c.toNat = 0x205f) || decide (c.toNat = 0x3000)

/-- Python slice-index adjustment: a negative index counts from the end of
the string, and the result is clamped to `[0, n]`. -/
def pyAdjust (n : Nat) (i : Int) : Nat :=
  if i < 0 then (Int.toNat (n + i)) else min i.toNat n

/-- Python `text[s:e]`. -/
def pySlice (text : List Char) (s e : Int) : List Char :=
  (text.take (pyAdjust text.length e)).drop (pyAdjust text.length s)

/-- Python `str.strip()`: remove leading and trailing whitespace. -/
def pyStrip (l : List Char) : List Char :=
  ((l.dropWhile pyIsSpace).reverse.dropWhile pyIsSpace).reverse

/-- Index of the last occurrence of `sub` (as a contiguous sublist) in `l`,
or `none`. -/
def lastOcc (sub : List Char) : List Char → Option Nat
  | [] => if sub = [] then some 0 else none
  | c :: rest =>
    match lastOcc sub rest with
    | some j => some (j + 1)
    | none => if ((c :: rest).take sub.length) = sub then some 0 else none

/-- Python `text.rfind(sub, s, e)`: highest index at which `sub` occurs fully
inside `text[s:e]`, or `-1`. -/
def pyRfind (text sub : List Char) (s e : Int) : Int :=
  match lastOcc sub ((text.take (pyAdjust text.length e)).drop (pyAdjust text.length s)) with
  | some j => ((pyAdjust text.length s + j : Nat) : Int)
  | none => -1

/-- The sentence separators tried, in order, by `_chunk_text`:
`". "`, `".\n"`, `"\n\n"`. -/
def chunkSeps : List (List Char) := [['.', ' '], ['.', '\n'], ['\n', '\n']]

/-- The `for sep in [...]` loop of `_chunk_text`: snap the window end to just
after the last separator occurrence when that occurrence is strictly after
`start`; the first separator that matches wins. -/
def trySeps (text : List Char) (start endv : Int) : List (List Char) → Int
  | [] => endv
  | sep :: rest =>
    let last_sep := pyRfind text sep start endv
    if start < last_sep then last_sep + sep.length else trySeps text start endv rest

/-- One chunk produced by `_chunk_text`: the stripped window text together
with the raw (unstripped) window positions. -/
structure Chunk where
  text : List Char
  start_idx : Int
  end_idx : Int
deriving DecidableEq, Repr

/-- Window-end computation of one `_chunk_text` iteration:
`end = min(start + chunk_size, len(text))`, then boundary snapping when the
window end is interior to the text. -/
def windowEnd (chunk_size : Nat) (text : List Char) (start : Int) : Int :=
  let n : Int := text.length
  let end0 := min (start + (chunk_size : Int)) n
  if end0 < n then trySeps text start end0 chunkSeps else end0

/-- Python `text[start:end].strip()`, emitted only if non-empty. -/
def emitChunk (text : List Char) (start endv : Int) : Option Chunk :=
  let piece := pyStrip (pySlice text start endv)
  if piece = [] then none else some ⟨piece, start, endv⟩

/-- The advance `start = end - overlap if end < len(text) else len(text)`. -/
def nextStart (overlap : Nat) (text : List Char) (endv : Int) : Int :=
  if endv < (text.length : Int) then endv - (overlap : Int) else (text.length : Int)

/-- The append step `if chunk_text: chunks.append(...)`: push the emitted chunk, if any,
onto the accumulator. -/
def pushChunk (text : List Char) (start e : Int) (acc : List Chunk) : List Chunk :=
  match emitChunk text start e with
  | some c => c :: acc
  | none => acc

/-- The `while start < len(text)` loop of `_chunk_text`, with explicit fuel.
`none` means the fuel was exhausted before the loop condition became false.
Chunks are accumulated newest-first and reversed on exit. -/
def chunkLoop (chunk_size overlap : Nat) (text : List Char) :
    Nat → Int → List Chunk → Option (List Chunk)
  | 0, start, acc =>
    if start < (text.length : Int) then none else some acc.reverse
  | fuel + 1, start, acc =>
    if start < (text.length : Int) then
      let e := windowEnd chunk_size text start
      chunkLoop chunk_size overlap text fuel (nextStart overlap text e)
        (pushChunk text start e acc)
    else some acc.reverse

/-- Model of `IndexService._chunk_text(text)` with configuration `chunk_size`,
`chunk_overlap` (defaults 500 and 100), run with the given amount of fuel. -/
def chunk_text (chunk_size overlap : Nat) (text : List Char) (fuel : Nat) :
    Option (List Chunk) :=
  chunkLoop chunk_size overlap text fuel 0 []

/-- Maximum of a list of integers (Python `max` on a non-empty collection;
`0` for the empty list, which the caller rules out). -/
def maxList (l : List Int) : Int :=
  match l with
  | [] => 0
  | h :: t => t.foldl max h

/-- Python `int()` applied to a rational: truncation toward zero. -/
def pyTrunc (q : ℚ) : Int :=
  if q < 0 then -(Rat.floor (-q)) else Rat.floor q

/-- Model of `IndexService._find_grounding_for_chunk`.  The grounding dict is modelled
by its list of values, each value contributing `some page` when it is a dict
with a `"page"` key and `none` otherwise (the element ids are never used).
The function returns the `"page"` entry of the dict built by the source;
no source path ever adds a `"box"` key, so the result is just the page. -/
def find_grounding_for_chunk (chunk : Chunk) (grounding : Option (List (Option Int)))
    (total_chars : Nat) : Int :=
  match grounding with
  | none => 1
  | some entries =>
    if entries = [] then 1
    else
      let pages := entries.filterMap id
      if pages = [] then 1
      else
        let total_pages := maxList pages
        if total_pages = 1 then 1
        else if 0 < total_chars then
          let chunk_midpoint : ℚ := ((chunk.start_idx : ℚ) + (chunk.end_idx : ℚ)) / 2
          let position_ratio : ℚ := chunk_midpoint / (total_chars : ℚ)
          let estimated_page : Int := pyTrunc (position_ratio * (total_pages : ℚ)) + 1
          min estimated_page total_pages
        else 1

/-- A text on which the `_chunk_text` scan loop never terminates with the
default configuration `chunk_size = 500`, `chunk_overlap = 100`:
`"x" * 98 + ". " + "y" * 600`.  The window `[0, 500)` is snapped to the
sentence boundary at index 98, giving `end = 100`, and the advance
`start = end - overlap` puts `start` back to `0` forever. -/
def badText : List Char := List.replicate 98 'x' ++ ['.', ' '] ++ List.replicate 600 'y'

/-- A text on which the adjacent-overlap property fails with the default
configuration: 450 `'A'`s, 1000 spaces, 200 `'B'`s.  The window `[800, 1300)`
is whitespace-only, so no chunk is emitted for it; the following emitted
chunk starts at 1200, past the previous chunk's end 900. -/
def c4Text : List Char := List.replicate 450 'A' ++ List.replicate 1000 ' ' ++ List.replicate 200 'B'

/-- Python scalar values stored in metadata dicts. -/
inductive PyVal where
  | str : String → PyVal
  | int : Int → PyVal
  | rat : ℚ → PyVal
  | bool : Bool → PyVal
  | null : PyVal
deriving DecidableEq

/-- One metadata record appended per chunk by `index_document` is a Python
dict (`services/index.py:168-177`), modelled as an association list with
unique keys in insertion order; lookups read the first (only) binding of a
key. -/
abbrev IndexRecord := List (String × PyVal)

/-- Python dict assignment `m[k] = v`: replace the value in place if the key
is present, otherwise append the new binding. -/
def dictInsert : List (String × PyVal) → String → PyVal → List (String × PyVal)
  | [], k, v => [(k, v)]
  | (k2, v2) :: rest, k, v =>
    if k2 = k then (k2, v) :: rest else (k2, v2) :: dictInsert rest k v

/-- Python dict merge `{**base, **extra}`: entries of `extra` are inserted
left to right and override same-keyed entries of `base`. -/
def dictMerge (base : List (String × PyVal)) (extra : List (String × PyVal)) :
    List (String × PyVal) :=
  extra.foldl (fun m kv => dictInsert m kv.1 kv.2) base

/-- The state of an `IndexService`: the FAISS vector collection (`ntotal`
vectors, modelled as the already-normalised embeddings) and the parallel
`_metadata` record list. -/
structure IndexState where
  vectors : List (List ℚ)
  metadata : List IndexRecord
deriving DecidableEq

/-- A fresh service with no persisted index starts empty. -/
def emptyState : IndexState := ⟨[], []⟩

/-- The id `chunk_id` built as document id, underscore, decimal ordinal. -/
def mkChunkId (document_id : String) (i : Nat) : String :=
  document_id ++ "_" ++ Nat.repr i

/-- The metadata record built for chunk ordinal `i` of a document: the base
dict of `services/index.py:168-177` (the `bbox` entry is
`chunk_grounding.get("box")`, always `None` since `_find_grounding_for_chunk`
never returns a `"box"` key), merged with the caller's
`**(metadata or {})` splat — which, as in Python, overrides same-keyed base
entries, reserved keys included. -/
def chunkRecord (document_id : String) (i : Nat) (c : Chunk)
    (grounding : Option (List (Option Int))) (total_chars : Nat)
    (extra : List (String × PyVal)) : IndexRecord :=
  dictMerge
    [("document_id", PyVal.str document_id),
     ("chunk_id", PyVal.str (mkChunkId document_id i)),
     ("text", PyVal.str (String.mk c.text)),
     ("start_idx", PyVal.int c.start_idx),
     ("end_idx", PyVal.int c.end_idx),
     ("page", PyVal.int (find_grounding_for_chunk c grounding total_chars)),
     ("bbox", PyVal.null)]
    extra

/-- The `for i, (chunk, embedding) in enumerate(zip(chunks, embeddings))`
loop of `index_document`: append the (normalised) embedding to the index and
the record to the metadata list, in lock-step. -/
def indexLoop (document_id : String) (grounding : Option (List (Option Int)))
    (total_chars : Nat) (extra : List (String × PyVal)) :
    Nat → List (Chunk × List ℚ) → IndexState → IndexState
  | _, [], st => st
  | i, (c, emb) :: rest, st =>
    indexLoop document_id grounding total_chars extra (i + 1) rest
      ⟨st.vectors ++ [emb],
       st.metadata ++ [chunkRecord document_id i c grounding total_chars extra]⟩

/-- Model of `IndexService.index_document`.  The chunk list is the output of the
chunker on the content, `total_chars = len(content)`, and the embeddings come
from the external embedding service (modelled as inputs); `extra` is the
optional caller metadata dict. -/
def index_document (st : IndexState) (document_id : String) (chunks : List Chunk)
    (embeddings : List (List ℚ)) (extra : List (String × PyVal))
    (grounding : Option (List (Option Int))) (total_chars : Nat) : IndexState :=
  indexLoop document_id grounding total_chars extra 0 (chunks.zip embeddings) st

/-- The records appended by one ingest run, with ordinals starting at `i`. -/
def recsFrom (document_id : String) (grounding : Option (List (Option Int)))
    (total_chars : Nat) (extra : List (String × PyVal)) :
    Nat → List (Chunk × List ℚ) → List IndexRecord
  | _, [] => []
  | i, (c, _) :: rest =>
    chunkRecord document_id i c grounding total_chars extra ::
      recsFrom document_id grounding total_chars extra (i + 1) rest

/-- The test `m["document_id"] != document_id`: the predicate selecting
records kept by `delete_document`.  Every stored record carries the key (the
base dict provides it and an override keeps it present), so the `Option`
lookup is always `some`; a non-string override value compares unequal to the
string, exactly as in Python. -/
def keepRec (document_id : String) (m : IndexRecord) : Bool :=
  !(decide (m.lookup "document_id" = some (PyVal.str document_id)))

/-- The rebuild `[self._index.reconstruct(i) for i in indices_to_keep]`; `none` models an
out-of-range reconstruct (an exception in the source). -/
def reconstructAll (vectors : List (List ℚ)) : List Nat → Option (List (List ℚ))
  | [] => some []
  | i :: rest =>
    match vectors.get? i with
    | none => none
    | some v =>
      match reconstructAll vectors rest with
      | none => none
      | some vs => some (v :: vs)

/-- Model of `IndexService.delete_document`: filter the metadata by document id; if
nothing matched return 0; otherwise rebuild the index from the reconstructed
kept vectors (or create a fresh empty one when nothing is kept) and return
the number of deleted records. -/
def delete_document (st : IndexState) (document_id : String) :
    Option (IndexState × Nat) :=
  let keepPairs := st.metadata.enum.filter (fun p => keepRec document_id p.2)
  let indices_to_keep := keepPairs.map Prod.fst
  let deleted_count := st.metadata.length - indices_to_keep.length
  if deleted_count = 0 then some (st, 0)
  else if indices_to_keep = [] then some (⟨[], []⟩, deleted_count)
  else
    match reconstructAll st.vectors indices_to_keep with
    | none => none
    | some kept_vectors => some (⟨kept_vectors, keepPairs.map Prod.snd⟩, deleted_count)

/-- One character of the id-pattern class `[\w\-\.]` (word characters,
hyphen, dot).  The ASCII subset of the regex `\w` is modelled; Python's
`re` additionally matches non-ASCII word characters, which only widens the
accepted set and is not exercised by the ids in this development. -/
def isDocIdChar (c : Char) : Bool :=
  (decide ('a' ≤ c) && decide (c ≤ 'z')) || (decide ('A' ≤ c) && decide (c ≤ 'Z')) ||
    (decide ('0' ≤ c) && decide (c ≤ '9')) || c == '_' || c == '-' || c == '.'

/-- One character of `[a-f0-9]`. -/
def isHexLower (c : Char) : Bool :=
  (decide ('a' ≤ c) && decide (c ≤ 'f')) || (decide ('0' ≤ c) && decide (c ≤ '9'))

/-- Model of `validate_document_id` (`routers/documents.py:39-45`): the id
must be at most 256 characters and match `^[\w\-\.]+_[a-f0-9]{12}$`, i.e.
an underscore thirteen places from the end, a non-empty prefix of pattern
characters before it, and twelve lowercase-hex characters after it. -/
def validate_document_id (document_id : String) : Bool :=
  if 256 < document_id.data.length then false
  else
    decide (14 ≤ document_id.data.length) &&
      (document_id.data.take (document_id.data.length - 13)).all isDocIdChar &&
      (match document_id.data.get? (document_id.data.length - 13) with
        | some c => c == '_'
        | none => false) &&
      (document_id.data.drop (document_id.data.length - 12)).all isHexLower

/-- The `DELETE /documents/{id}` route handler (`routers/documents.py`):
the document id is validated first (a malformed or over-long id is an HTTP
400 error); then a zero deleted count is turned into an HTTP 404 error and
an exception into a 500. -/
def deleteDocumentRoute (st : IndexState) (document_id : String) :
    Except Nat (IndexState × Nat) :=
  if validate_document_id document_id then
    match delete_document st document_id with
    | none => Except.error 500
    | some (st2, chunks_deleted) =>
      if chunks_deleted = 0 then Except.error 404 else Except.ok (st2, chunks_deleted)
  else Except.error 400

/-- One `index_document` or `delete_document` call with its inputs. -/
inductive Op where
  | index : String → List Chunk → List (List ℚ) → List (String × PyVal) →
      Option (List (Option Int)) → Nat → Op
  | delete : String → Op

/-- Apply one operation to the service state. -/
def applyOp (st : IndexState) : Op → Option IndexState
  | Op.index d chunks embs extra g tc => some (index_document st d chunks embs extra g tc)
  | Op.delete d => (delete_document st d).map Prod.fst

/-- Run a sequence of operations. -/
def runOps : IndexState → List Op → Option IndexState
  | st, [] => some st
  | st, op :: rest =>
    match applyOp st op with
    | none => none
    | some st2 => runOps st2 rest

/-- Inner product of the (normalised) query with a stored vector. -/
def innerProd (q v : List ℚ) : ℚ := (List.zipWith (fun a b => a * b) q v).sum

/-- Score every stored vector against the query, tagging each score with the
vector's position (as the int64 index FAISS reports). -/
def scoredFrom (q : List ℚ) : Nat → List (List ℚ) → List (ℚ × Int)
  | _, [] => []
  | i, v :: rest => (innerProd q v, (i : Int)) :: scoredFrom q (i + 1) rest

/-- Stable descending insertion: an element is placed before the first
strictly smaller score, hence after all earlier elements of equal score. -/
def insertDesc (p : ℚ × Int) : List (ℚ × Int) → List (ℚ × Int)
  | [] => [p]
  | b :: rest => if b.1 < p.1 then p :: b :: rest else b :: insertDesc p rest

/-- Stable descending sort by score (insertion order breaks ties). -/
def sortDesc (l : List (ℚ × Int)) : List (ℚ × Int) :=
  l.foldl (fun acc p => insertDesc p acc) []

/-- Model of `faiss.IndexFlatIP.search(query, k)`: the `k` best (score, index) pairs
in descending score order, padded with index `-1` entries when fewer than
`k` vectors are stored. -/
def faissSearch (vectors : List (List ℚ)) (q : List ℚ) (k : Nat) : List (ℚ × Int) :=
  (sortDesc (scoredFrom q 0 vectors)).take k ++
    List.replicate (k - (sortDesc (scoredFrom q 0 vectors)).length) ((0 : ℚ), (-1 : Int))

/-- The filter `if idx < 0 or score < threshold: continue`. -/
def keepHit (threshold : ℚ) (p : ℚ × Int) : Bool :=
  !(decide (p.2 < 0) || decide (p.1 < threshold))

/-- The (score, index) pairs that survive the filter in `search`. -/
def keptPairs (vectors : List (List ℚ)) (q : List ℚ) (k : Nat) (threshold : ℚ) :
    List (ℚ × Int) :=
  (faissSearch vectors q k).filter (keepHit threshold)

/-- The lookup `self._metadata[idx]` for each kept pair; `none` models an out-of-range
metadata access (an `IndexError` in the source). -/
def lookupHits (metadata : List IndexRecord) :
    List (ℚ × Int) → Option (List (IndexRecord × ℚ))
  | [] => some []
  | p :: rest =>
    match metadata.get? p.2.toNat with
    | none => none
    | some m =>
      match lookupHits metadata rest with
      | none => none
      | some hits => some ((m, p.1) :: hits)

/-- Model of `IndexService.search`: an empty index returns `[]`; otherwise each kept
(score, index) pair is resolved to its metadata record together with the
score.  The query argument is the already-normalised embedding. -/
def search (st : IndexState) (q : List ℚ) (top_k : Nat) (threshold : ℚ) :
    Option (List (IndexRecord × ℚ)) :=
  if st.vectors.length = 0 then some []
  else lookupHits st.metadata (keptPairs st.vectors q top_k threshold)

/-- Strict descending-score order with ties broken by ascending stored
position (stable insertion order). -/
def pairLT (a b : ℚ × Int) : Prop := b.1 < a.1 ∨ (a.1 = b.1 ∧ a.2 < b.2)

/-- The keys the evidence router removes from the metadata bag of a result
(`routers/evidence.py:55-58`). -/
def evidenceExcluded : List String :=
  ["document_id", "chunk_id", "text", "score", "start_idx", "end_idx"]

/-- The `metadata` field of an `EvidenceResult`: every entry of the search
result dict except the listed keys. -/
def evidenceMetadata (r : List (String × PyVal)) : List (String × PyVal) :=
  r.filter (fun kv => !(evidenceExcluded.contains kv.1))

/-- The `EvidenceResult` pydantic model (`models/evidence.py`), with each
field holding the looked-up value of the corresponding result-dict key. -/
structure EvidenceResultModel where
  document_id : Option PyVal
  chunk_id : Option PyVal
  text : Option PyVal
  page : Option PyVal
  score : Option PyVal
  title : Option PyVal
  authors : Option PyVal
  year : Option PyVal
  source_pdf : Option PyVal
  metadata : List (String × PyVal)
deriving DecidableEq

/-- The `EvidenceResult(...)` construction in `search_evidence`: the named
fields are pulled from the search-result dict `r` and the metadata bag is the
filtered remainder. -/
def mkEvidenceResult (r : List (String × PyVal)) : EvidenceResultModel :=
  { document_id := r.lookup "document_id"
    chunk_id := r.lookup "chunk_id"
    text := r.lookup "text"
    page := r.lookup "page"
    score := r.lookup "score"
    title := r.lookup "title"
    authors := r.lookup "authors"
    year := r.lookup "year"
    source_pdf := r.lookup "source_pdf"
    metadata := evidenceMetadata r }

/-- Everything a caller can read from an `EvidenceResult`, keyed by name:
the nine named fields, then the metadata bag. -/
def exposedLookup (res : EvidenceResultModel) (k : String) : Option PyVal :=
  if k = "document_id" then res.document_id
  else if k = "chunk_id" then res.chunk_id
  else if k = "text" then res.text
  else if k = "page" then res.page
  else if k = "score" then res.score
  else if k = "title" then res.title
  else if k = "authors" then res.authors
  else if k = "year" then res.year
  else if k = "source_pdf" then res.source_pdf
  else res.metadata.lookup k

/-- A concrete record of document `"A"` used by witnesses. -/
def recA : IndexRecord :=
  [("document_id", PyVal.str "A"), ("chunk_id", PyVal.str "A_0"),
   ("text", PyVal.str "a"), ("start_idx", PyVal.int 0), ("end_idx", PyVal.int 1),
   ("page", PyVal.int 1), ("bbox", PyVal.null)]

/-- A concrete record of document `"B"` used by witnesses. -/
def recB : IndexRecord :=
  [("document_id", PyVal.str "B"), ("chunk_id", PyVal.str "B_0"),
   ("text", PyVal.str "b"), ("start_idx", PyVal.int 0), ("end_idx", PyVal.int 1),
   ("page", PyVal.int 1), ("bbox", PyVal.null)]

def digitVal (c : Char) : Nat := c.toNat - '0'.toNat

def decodeDigits (l : List Char) : Nat := l.foldl (fun a c => a * 10 + digitVal c) 0

/-- The chunk ids of the records of one document, in storage order (the
`m["chunk_id"]` values of the records whose `m["document_id"]` equals the
given id). -/
def chunkIdsOf (st : IndexState) (d : String) : List (Option PyVal) :=
  (st.metadata.filter (fun m => decide (m.lookup "document_id" = some (PyVal.str d)))).map
    (fun m => m.lookup "chunk_id")

/-- An operation sequence that never indexes a document id that is already
present (every re-index is preceded by a delete of that id) and whose caller
metadata never overrides the reserved `chunk_id` / `document_id` keys
through the `**(metadata or {})` splat. -/
def validSeq : List String → List Op → Bool
  | _, [] => true
  | seen, Op.index d _ _ ex _ _ :: rest =>
    !(seen.contains d) && !((ex.map Prod.fst).contains "chunk_id") &&
      !((ex.map Prod.fst).contains "document_id") && validSeq (d :: seen) rest
  | seen, Op.delete d :: rest => validSeq (seen.filter (fun s => s != d)) rest

/-- A one-character chunk used in the C3 counterexample and witness. -/
def cW : Chunk := ⟨['a'], 0, 1⟩

lemma chunkLoop_badText : ∀ (fuel : Nat) (acc : List Chunk),
    chunkLoop 500 100 badText fuel 0 acc = none := by
  intro fuel
  induction fuel with
  | zero =>
    intro acc
    have h : ((0 : Int) < (badText.length : Int)) := by decide
    simp only [chunkLoop]
    rw [if_pos h]
  | succ n ih =>
    intro acc
    have h : ((0 : Int) < (badText.length : Int)) := by decide
    have hnext : nextStart 100 badText (windowEnd 500 badText 0) = 0 := by decide
    simp only [chunkLoop]
    rw [if_pos h, hnext]
    exact ih _

/-- C2: the claim asserts that `_chunk_text` is total for every input text
whenever `chunk_size > chunk_overlap ≥ 0` (defaults 500 and 100).  The code
violates this: on `badText` (with the default configuration) the loop
revisits `start = 0` forever, so no amount of fuel makes the loop terminate. -/
theorem C2_chunk_text_nonterminating :
    ∀ fuel : Nat, chunk_text 500 100 badText fuel = none := by
  intro fuel
  exact chunkLoop_badText fuel []

/-- C5, counterexample: the claim says a grounding map whose entries carry
exactly one distinct page number yields page 1.  The code instead tests
`max(pages) == 1`: a map whose single distinct page is `3` (with
`total_chars = 1000` and a chunk spanning `[900, 1000]`) yields page 3. -/
theorem C5_counterexample :
    find_grounding_for_chunk ⟨[], 900, 1000⟩ (some [some 3]) 1000 = 3 ∧
      find_grounding_for_chunk ⟨[], 900, 1000⟩ (some [some 3]) 1000 ≠ 1 := by
  have hfl : ((57 : ℚ) / 20).floor = 2 := by
    have h : ((57 : ℚ) / 20).floor = ⌊(57 : ℚ) / 20⌋ := rfl
    rw [h, Int.floor_eq_iff]
    constructor <;> norm_num
  have h3 : find_grounding_for_chunk ⟨[], 900, 1000⟩ (some [some 3]) 1000 = 3 := by
    norm_num [find_grounding_for_chunk, maxList, pyTrunc, List.filterMap_cons, hfl]
  exact ⟨h3, by rw [h3]; decide⟩

/-- C5, amended: the grounding estimator returns page 1 when the map is
absent, empty, carries no page entries, or when the **maximum** known page
number is 1 (in particular when the only distinct page value is 1); a single
distinct page value greater than 1 instead triggers proportional
estimation. -/
theorem C5_grounding_page_one (chunk : Chunk) (entries : List (Option Int)) (total_chars : Nat)
    (h : entries = [] ∨ entries.filterMap id = [] ∨ maxList (entries.filterMap id) = 1) :
    find_grounding_for_chunk chunk (some entries) total_chars = 1 ∧
      find_grounding_for_chunk chunk none total_chars = 1 := by
  refine ⟨?_, rfl⟩
  rcases h with h | h | h
  · simp [find_grounding_for_chunk, h]
  · simp [find_grounding_for_chunk, h]
  · simp only [find_grounding_for_chunk, h]
    split <;> simp_all

/-- Witness for `C5_grounding_page_one` at a concrete input. -/
theorem C5_grounding_page_one_witness :
    find_grounding_for_chunk ⟨[], 0, 10⟩ (some [some 1, none, some 1]) 1000 = 1 ∧
      find_grounding_for_chunk ⟨[], 0, 10⟩ none 1000 = 1 :=
  C5_grounding_page_one ⟨[], 0, 10⟩ [some 1, none, some 1] 1000 (Or.inr (Or.inr (by decide)))

/-- Every character of a sublist located by `lastOcc` is a character of the
searched list. -/
lemma lastOcc_subset {sub : List Char} :
    ∀ {l : List Char} {j : Nat}, lastOcc sub l = some j → ∀ c ∈ sub, c ∈ l := by
  intro l
  induction l with
  | nil =>
    intro j h c hc
    simp only [lastOcc] at h
    split at h
    · simp_all
    · cases h
  | cons a rest ih =>
    intro j h c hc
    cases hrec : lastOcc sub rest with
    | some j2 =>
      exact List.mem_cons_of_mem a (ih hrec c hc)
    | none =>
      simp only [lastOcc, hrec] at h
      by_cases htake : (a :: rest).take sub.length = sub
      · rw [← htake] at hc
        exact List.take_subset _ _ hc
      · rw [if_neg htake] at h
        cases h

/-- On a text with no whitespace characters, `rfind` of any separator that
contains a whitespace character returns `-1`. -/
lemma pyRfind_noWS {text sub : List Char} {s e : Int}
    (hws : ∀ c ∈ text, pyIsSpace c = false)
    (hsub : ∃ c ∈ sub, pyIsSpace c = true) :
    pyRfind text sub s e = -1 := by
  simp only [pyRfind]
  cases hocc : lastOcc sub ((text.take (pyAdjust text.length e)).drop (pyAdjust text.length s)) with
  | none => rfl
  | some j =>
    exfalso
    obtain ⟨c, hc, hcs⟩ := hsub
    have hmem : c ∈ text :=
      List.take_subset _ _ (List.drop_subset _ _ (lastOcc_subset hocc c hc))
    rw [hws c hmem] at hcs
    cases hcs

/-- Each of the three separators of `_chunk_text` contains a whitespace
character. -/
lemma chunkSeps_have_space : ∀ sep ∈ chunkSeps, ∃ c ∈ sep, pyIsSpace c = true := by
  decide

/-- On a whitespace-free text the separator loop never snaps the window. -/
lemma trySeps_noWS {text : List Char} {start endv : Int}
    (hws : ∀ c ∈ text, pyIsSpace c = false) (h0 : 0 ≤ start) :
    ∀ seps, (∀ sep ∈ seps, ∃ c ∈ sep, pyIsSpace c = true) →
      trySeps text start endv seps = endv := by
  intro seps
  induction seps with
  | nil => intro _; rfl
  | cons sep rest ih =>
    intro hall
    simp only [trySeps]
    rw [pyRfind_noWS hws (hall sep (List.mem_cons_self sep rest))]
    rw [if_neg (by omega)]
    exact ih (fun s hs => hall s (List.mem_cons_of_mem sep hs))

/-- On a whitespace-free text the window end is the hard cutoff. -/
lemma windowEnd_noWS {cs : Nat} {text : List Char} {start : Int}
    (hws : ∀ c ∈ text, pyIsSpace c = false) (h0 : 0 ≤ start) :
    windowEnd cs text start = min (start + (cs : Int)) (text.length : Int) := by
  simp only [windowEnd]
  split
  · exact trySeps_noWS hws h0 chunkSeps chunkSeps_have_space
  · rfl

lemma dropWhile_eq_self_of {p : Char → Bool} :
    ∀ {l : List Char}, (∀ c ∈ l, p c = false) → l.dropWhile p = l := by
  intro l h
  cases l with
  | nil => rfl
  | cons a t => simp [List.dropWhile, h a (List.mem_cons_self a t)]

/-- Python `strip` is the identity on whitespace-free strings. -/
lemma pyStrip_noWS {l : List Char} (h : ∀ c ∈ l, pyIsSpace c = false) :
    pyStrip l = l := by
  unfold pyStrip
  rw [dropWhile_eq_self_of h]
  rw [dropWhile_eq_self_of (fun c hc => h c (List.mem_reverse.mp hc))]
  exact List.reverse_reverse l

/-- On a whitespace-free text, a window with `0 ≤ start < e ≤ len` always
emits a chunk, namely the raw slice with its positions. -/
lemma emitChunk_noWS {text : List Char} {start e : Int}
    (hws : ∀ c ∈ text, pyIsSpace c = false)
    (h0 : 0 ≤ start) (hlt : start < e) (hle : e ≤ (text.length : Int)) :
    emitChunk text start e = some ⟨pySlice text start e, start, e⟩ := by
  have hsub : ∀ c ∈ pySlice text start e, pyIsSpace c = false := by
    intro c hc
    exact hws c (List.take_subset _ _ (List.drop_subset _ _ hc))
  have ha : pyAdjust text.length start = start.toNat := by
    simp only [pyAdjust]
    rw [if_neg (by omega)]
    omega
  have hb : pyAdjust text.length e = e.toNat := by
    simp only [pyAdjust]
    rw [if_neg (by omega)]
    omega
  have hlen : (pySlice text start e).length = e.toNat - start.toNat := by
    simp only [pySlice, ha, hb, List.length_drop, List.length_take]
    omega
  have hne : pySlice text start e ≠ [] := by
    intro hnil
    rw [hnil] at hlen
    simp at hlen
    omega
  simp only [emitChunk]
  rw [pyStrip_noWS hsub, if_neg hne]

/-- On a whitespace-free text, every emitted chunk starts strictly before the
end of the previously emitted chunk (fuel-generalised loop invariant). -/
lemma chunkLoop_chain {cs ov : Nat} {text : List Char}
    (hov : 0 < ov) (hcs : ov < cs) (hws : ∀ c ∈ text, pyIsSpace c = false) :
    ∀ (fuel : Nat) (start : Int) (acc res : List Chunk),
      0 ≤ start →
      (start < (text.length : Int) → ∀ c, acc.head? = some c → start < c.end_idx) →
      List.Chain' (fun a b => a.start_idx < b.end_idx) acc →
      chunkLoop cs ov text fuel start acc = some res →
      List.Chain' (fun a b => b.start_idx < a.end_idx) res := by
  intro fuel
  induction fuel with
  | zero =>
    intro start acc res h0 hlink hchain hrun
    simp only [chunkLoop] at hrun
    split at hrun
    · cases hrun
    · injection hrun with hres
      rw [← hres]
      exact List.chain'_reverse.mpr hchain
  | succ m ih =>
    intro start acc res h0 hlink hchain hrun
    simp only [chunkLoop] at hrun
    by_cases hstart : start < (text.length : Int)
    · rw [if_pos hstart] at hrun
      have he : windowEnd cs text start = min (start + (cs : Int)) (text.length : Int) :=
        windowEnd_noWS hws h0
      have h1 : start < windowEnd cs text start := by
        rw [he]
        have hcspos : 0 < cs := by omega
        have : (0 : Int) < (cs : Int) := by exact_mod_cast hcspos
        omega
      have h2 : windowEnd cs text start ≤ (text.length : Int) := by
        rw [he]; exact min_le_right _ _
      have hemit : pushChunk text start (windowEnd cs text start) acc =
          ⟨pySlice text start (windowEnd cs text start), start, windowEnd cs text start⟩ :: acc := by
        simp only [pushChunk]
        rw [emitChunk_noWS hws h0 h1 h2]
      rw [hemit] at hrun
      have hchain2 : List.Chain' (fun a b => a.start_idx < b.end_idx)
          (Chunk.mk (pySlice text start (windowEnd cs text start)) start
            (windowEnd cs text start) :: acc) := by
        rw [List.chain'_cons']
        constructor
        · intro y hy
          exact hlink hstart y hy
        · exact hchain
      by_cases hE : windowEnd cs text start < (text.length : Int)
      · have hnext : nextStart ov text (windowEnd cs text start) =
            windowEnd cs text start - (ov : Int) := by
          simp only [nextStart]
          rw [if_pos hE]
        rw [hnext] at hrun
        have hEeq : windowEnd cs text start = start + (cs : Int) := by
          rw [he] at hE ⊢
          omega
        have hcast : (ov : Int) < (cs : Int) := by exact_mod_cast hcs
        refine ih _ _ _ (by omega) ?_ hchain2 hrun
        intro _ c hc
        simp only [List.head?] at hc
        injection hc with hc
        rw [← hc]
        simp only []
        omega
      · have hnext : nextStart ov text (windowEnd cs text start) = (text.length : Int) := by
          simp only [nextStart]
          rw [if_neg hE]
        rw [hnext] at hrun
        refine ih _ _ _ (by omega) ?_ hchain2 hrun
        intro hlt2
        exact absurd hlt2 (lt_irrefl _)
    · rw [if_neg hstart] at hrun
      injection hrun with hres
      rw [← hres]
      exact List.chain'_reverse.mpr hchain

/-- C4, amended: the claimed overlap inequality
`chunk[i+1].start_idx < chunk[i].end_idx` for adjacent output chunks holds
whenever no whitespace-only window is skipped between them; in particular it
holds for every whitespace-free text, for any configuration with
`0 < overlap < chunk_size`, whenever the scan terminates. -/
theorem C4_adjacent_overlap (cs ov : Nat) (text : List Char) (fuel : Nat) (res : List Chunk)
    (hov : 0 < ov) (hcs : ov < cs) (hws : ∀ c ∈ text, pyIsSpace c = false)
    (hrun : chunk_text cs ov text fuel = some res) :
    List.Chain' (fun a b => b.start_idx < a.end_idx) res := by
  refine chunkLoop_chain hov hcs hws fuel 0 [] res le_rfl ?_ List.chain'_nil hrun
  intro _ c hc
  cases hc

/-- C4, counterexample: on `c4Text` the chunker (defaults 500/100) terminates
with three chunks `(0,500), (400,900), (1200,1650)`; the last adjacent pair
violates `chunk[i+1].start_idx < chunk[i].end_idx` since `1200 ≥ 900`. -/
theorem C4_counterexample :
    chunk_text 500 100 c4Text 8 =
      some [⟨List.replicate 450 'A', 0, 500⟩, ⟨List.replicate 50 'A', 400, 900⟩,
            ⟨List.replicate 200 'B', 1200, 1650⟩] ∧
    ¬ List.Chain' (fun a b => b.start_idx < a.end_idx)
        ([⟨List.replicate 450 'A', 0, 500⟩, ⟨List.replicate 50 'A', 400, 900⟩,
          ⟨List.replicate 200 'B', 1200, 1650⟩] : List Chunk) := by
  constructor
  · have w0 : windowEnd 500 c4Text 0 = 500 := by decide
    have n0 : nextStart 100 c4Text 500 = 400 := by decide
    have e0 : emitChunk c4Text 0 500 = some ⟨List.replicate 450 'A', 0, 500⟩ := by decide
    have w1 : windowEnd 500 c4Text 400 = 900 := by decide
    have n1 : nextStart 100 c4Text 900 = 800 := by decide
    have e1 : emitChunk c4Text 400 900 = some ⟨List.replicate 50 'A', 400, 900⟩ := by decide
    have w2 : windowEnd 500 c4Text 800 = 1300 := by decide
    have n2 : nextStart 100 c4Text 1300 = 1200 := by decide
    have e2 : emitChunk c4Text 800 1300 = none := by decide
    have w3 : windowEnd 500 c4Text 1200 = 1650 := by decide
    have n3 : nextStart 100 c4Text 1650 = 1650 := by decide
    have e3 : emitChunk c4Text 1200 1650 = some ⟨List.replicate 200 'B', 1200, 1650⟩ := by decide
    simp only [chunk_text, chunkLoop]
    rw [if_pos (by decide : (0:Int) < (c4Text.length : Int))]
    rw [w0, n0]
    simp only [pushChunk, e0]
    rw [if_pos (by decide : (400:Int) < (c4Text.length : Int))]
    rw [w1, n1]
    simp only [pushChunk, e1]
    rw [if_pos (by decide : (800:Int) < (c4Text.length : Int))]
    rw [w2, n2]
    simp only [pushChunk, e2]
    rw [if_pos (by decide : (1200:Int) < (c4Text.length : Int))]
    rw [w3, n3]
    simp only [pushChunk, e3]
    rw [if_neg (by decide : ¬ ((1650:Int) < (c4Text.length : Int)))]
    rfl
  · intro h
    rw [List.chain'_cons, List.chain'_cons] at h
    have h21 : (1200 : Int) < (900 : Int) := h.2.1
    omega

/-- Witness for `C4_adjacent_overlap` on a concrete whitespace-free text. -/
theorem C4_adjacent_overlap_witness :
    List.Chain' (fun a b => b.start_idx < a.end_idx)
      ([⟨['a','b','c','d','e'],0,5⟩, ⟨['c','d','e','f','g'],2,7⟩,
        ⟨['e','f','g','h'],4,8⟩] : List Chunk) :=
  C4_adjacent_overlap 5 3 ['a','b','c','d','e','f','g','h'] 5
    ([⟨['a','b','c','d','e'],0,5⟩, ⟨['c','d','e','f','g'],2,7⟩,
      ⟨['e','f','g','h'],4,8⟩] : List Chunk)
    (by decide) (by decide) (by decide) (by decide)

/-- Filtering an enumeration on the element and projecting the element is
filtering the underlying list. -/
lemma enumFrom_filter_map_snd (f : IndexRecord → Bool) :
    ∀ (l : List IndexRecord) (n : Nat),
      ((List.enumFrom n l).filter (fun p => f p.2)).map Prod.snd = l.filter f := by
  intro l
  induction l with
  | nil => intro n; rfl
  | cons m rest ih =>
    intro n
    show (((n, m) :: List.enumFrom (n + 1) rest).filter (fun p => f p.2)).map Prod.snd =
      (m :: rest).filter f
    cases hf : f m with
    | true => simp [List.filter_cons, hf, ih (n + 1)]
    | false => simp [List.filter_cons, hf, ih (n + 1)]

/-- Membership in an enumeration projects to membership. -/
lemma mem_of_mem_enumFrom {p : Nat × IndexRecord} :
    ∀ {l : List IndexRecord} {n : Nat}, p ∈ List.enumFrom n l → p.2 ∈ l := by
  intro l
  induction l with
  | nil => intro n h; cases h
  | cons m rest ih =>
    intro n h
    simp only [List.enumFrom] at h
    cases h with
    | head => exact List.mem_cons_self _ _
    | tail _ h2 => exact List.mem_cons_of_mem _ (ih h2)

/-- Vector `reconstruct` succeeds on every kept index and produces exactly the
vectors zip-aligned with the kept records. -/
lemma reconstructAll_enumFrom (f : IndexRecord → Bool) :
    ∀ (md : List IndexRecord) (pre vecs : List (List ℚ)),
      vecs.length = md.length →
      reconstructAll (pre ++ vecs)
          (((List.enumFrom pre.length md).filter (fun p => f p.2)).map Prod.fst) =
        some (((vecs.zip md).filter (fun p => f p.2)).map Prod.fst) := by
  intro md
  induction md with
  | nil =>
    intro pre vecs hlen
    have hv : vecs = [] := List.eq_nil_of_length_eq_zero hlen
    subst hv
    rfl
  | cons m md2 ih =>
    intro pre vecs hlen
    cases vecs with
    | nil => simp at hlen
    | cons v vecs2 =>
      have hlen2 : vecs2.length = md2.length := by simpa using hlen
      have hget : (pre ++ v :: vecs2).get? pre.length = some v := by
        rw [List.get?_append_right (le_refl pre.length)]
        simp
      have happ : pre ++ v :: vecs2 = (pre ++ [v]) ++ vecs2 := by simp
      have hrec2 := ih (pre ++ [v]) vecs2 hlen2
      simp only [List.length_append, List.length_singleton] at hrec2
      rw [← happ] at hrec2
      show reconstructAll (pre ++ v :: vecs2)
          ((((pre.length, m) :: List.enumFrom (pre.length + 1) md2).filter
            (fun p => f p.2)).map Prod.fst) =
        some ((((v, m) :: vecs2.zip md2).filter (fun p => f p.2)).map Prod.fst)
      cases hf : f m with
      | true =>
        simp [List.filter_cons, hf, reconstructAll, hget, hrec2]
        rw [List.getElem_append_right (le_refl pre.length)]
        simp
      | false =>
        simpa [List.filter_cons, hf] using hrec2

/-- Splitting a list by a boolean predicate preserves total length. -/
lemma length_filter_add_length_filter_not (f : IndexRecord → Bool) :
    ∀ l : List IndexRecord,
      (l.filter f).length + (l.filter (fun m => !(f m))).length = l.length := by
  intro l
  induction l with
  | nil => rfl
  | cons m rest ih =>
    cases hf : f m with
    | true => simp [List.filter, hf, ← ih]; omega
    | false => simp [List.filter, hf, ← ih]; omega

/-- Zip-filter-project on aligned lists recovers the plain filter. -/
lemma zip_filter_map_snd (f : IndexRecord → Bool) :
    ∀ (vecs : List (List ℚ)) (md : List IndexRecord), vecs.length = md.length →
      ((vecs.zip md).filter (fun p => f p.2)).map Prod.snd = md.filter f := by
  intro vecs
  induction vecs with
  | nil =>
    intro md hlen
    have : md = [] := List.eq_nil_of_length_eq_zero hlen.symm
    subst this
    rfl
  | cons v vecs2 ih =>
    intro md hlen
    cases md with
    | nil => simp at hlen
    | cons m md2 =>
      have hlen2 : vecs2.length = md2.length := by simpa using hlen
      show (((v, m) :: vecs2.zip md2).filter (fun p => f p.2)).map Prod.snd = (m :: md2).filter f
      cases hf : f m with
      | true => simp [List.filter_cons, hf, ih md2 hlen2]
      | false => simp [List.filter_cons, hf, ih md2 hlen2]

/-- Full characterisation of `delete_document` on an aligned state: it
succeeds, the surviving metadata is exactly the records of other documents in
their original order, the surviving vectors are the vectors zip-aligned with
those records, and the returned count is the number of matching records. -/
lemma delete_document_spec (st : IndexState) (d : String)
    (hal : st.metadata.length = st.vectors.length) :
    delete_document st d =
      some (⟨((st.vectors.zip st.metadata).filter (fun p => keepRec d p.2)).map Prod.fst,
             st.metadata.filter (keepRec d)⟩,
            (st.metadata.filter (fun m => !(keepRec d m))).length) := by
  have hcnt := length_filter_add_length_filter_not (keepRec d) st.metadata
  have hzlen : st.vectors.length = st.metadata.length := hal.symm
  have hklen : (((List.enumFrom 0 st.metadata).filter (fun p => keepRec d p.2)).map
      Prod.fst).length = (st.metadata.filter (keepRec d)).length := by
    rw [List.length_map]
    have h2 := congrArg List.length (enumFrom_filter_map_snd (keepRec d) st.metadata 0)
    rw [List.length_map] at h2
    exact h2
  simp only [delete_document, List.enum]
  rw [hklen]
  by_cases h0 : st.metadata.length - (st.metadata.filter (keepRec d)).length = 0
  · rw [if_pos h0]
    have hall : ∀ m ∈ st.metadata, keepRec d m = true := by
      have hlf : (st.metadata.filter (keepRec d)).length = st.metadata.length := by omega
      exact (List.filter_length_eq_length).mp hlf
    have hmf : st.metadata.filter (keepRec d) = st.metadata :=
      List.filter_eq_self.mpr hall
    have hzf : (st.vectors.zip st.metadata).filter (fun p => keepRec d p.2) =
        st.vectors.zip st.metadata := by
      apply List.filter_eq_self.mpr
      intro p hp
      exact hall p.2 (List.of_mem_zip hp).2
    have hnot : (st.metadata.filter (fun m => !(keepRec d m))).length = 0 := by omega
    rw [hzf, hmf, List.map_fst_zip _ _ (le_of_eq hzlen), hnot]
  · rw [if_neg h0]
    by_cases hnil : ((List.enumFrom 0 st.metadata).filter (fun p => keepRec d p.2)).map
        Prod.fst = []
    · rw [if_pos hnil]
      have hkp : (List.enumFrom 0 st.metadata).filter (fun p => keepRec d p.2) = [] :=
        List.map_eq_nil.mp hnil
      have hmf : st.metadata.filter (keepRec d) = [] := by
        rw [← enumFrom_filter_map_snd (keepRec d) st.metadata 0, hkp]
        rfl
      have hnone : ∀ m ∈ st.metadata, ¬ (keepRec d m = true) := by
        intro m hm hk
        have : m ∈ st.metadata.filter (keepRec d) := List.mem_filter.mpr ⟨hm, hk⟩
        rw [hmf] at this
        cases this
      have hzf : (st.vectors.zip st.metadata).filter (fun p => keepRec d p.2) = [] := by
        apply List.filter_eq_nil.mpr
        intro p hp
        exact hnone p.2 (List.of_mem_zip hp).2
      rw [hzf, hmf]
      simp only [List.map_nil, List.length_nil, Nat.sub_zero]
      have hcount2 : st.metadata.length =
          (st.metadata.filter (fun m => !(keepRec d m))).length := by
        have h0f : (st.metadata.filter (keepRec d)).length = 0 := by rw [hmf]; rfl
        omega
      rw [hcount2]
    · rw [if_neg hnil]
      have hrec := reconstructAll_enumFrom (keepRec d) st.metadata [] st.vectors hzlen
      simp only [List.nil_append, List.length_nil] at hrec
      simp only [hrec]
      rw [enumFrom_filter_map_snd (keepRec d) st.metadata 0]
      have hcount : st.metadata.length - (st.metadata.filter (keepRec d)).length =
          (st.metadata.filter (fun m => !(keepRec d m))).length := by omega
      rw [hcount]

/-- Unrolling the indexing loop: vectors and records are appended in
lock-step. -/
lemma indexLoop_eq (d : String) (g : Option (List (Option Int))) (tc : Nat)
    (ex : List (String × PyVal)) :
    ∀ (pairs : List (Chunk × List ℚ)) (i : Nat) (st : IndexState),
      indexLoop d g tc ex i pairs st =
        ⟨st.vectors ++ pairs.map Prod.snd, st.metadata ++ recsFrom d g tc ex i pairs⟩ := by
  intro pairs
  induction pairs with
  | nil =>
    intro i st
    simp only [indexLoop, recsFrom, List.map_nil, List.append_nil]
  | cons p rest ih =>
    intro i st
    cases p with
    | mk c emb =>
      simp only [indexLoop, recsFrom, List.map_cons]
      rw [ih (i + 1)]
      simp

/-- Unrolled `index_document` appends exactly the embeddings and the per-chunk
records. -/
lemma index_document_eq (st : IndexState) (d : String) (chunks : List Chunk)
    (embs : List (List ℚ)) (ex : List (String × PyVal))
    (g : Option (List (Option Int))) (tc : Nat) :
    index_document st d chunks embs ex g tc =
      ⟨st.vectors ++ (chunks.zip embs).map Prod.snd,
       st.metadata ++ recsFrom d g tc ex 0 (chunks.zip embs)⟩ :=
  indexLoop_eq d g tc ex (chunks.zip embs) 0 st

/-- One record per consumed (chunk, embedding) pair. -/
lemma recsFrom_length (d : String) (g : Option (List (Option Int))) (tc : Nat)
    (ex : List (String × PyVal)) :
    ∀ (pairs : List (Chunk × List ℚ)) (i : Nat),
      (recsFrom d g tc ex i pairs).length = pairs.length := by
  intro pairs
  induction pairs with
  | nil => intro i; rfl
  | cons p rest ih =>
    intro i
    cases p with
    | mk c emb => simp only [recsFrom, List.length_cons, ih (i + 1)]

/-- C1: starting from any aligned state (in particular a fresh empty
service), every sequence of `index_document` / `delete_document` operations
succeeds, and after each operation the number of vectors stored in the FAISS
index (`ntotal`) equals the length of the metadata record list. -/
theorem C1_index_alignment (init : IndexState) (ops : List Op)
    (hal : init.metadata.length = init.vectors.length) :
    (runOps init ops).isSome ∧
      ∀ st2, runOps init ops = some st2 → st2.metadata.length = st2.vectors.length := by
  induction ops generalizing init with
  | nil =>
    refine ⟨by simp [runOps], ?_⟩
    intro st2 h
    simp only [runOps] at h
    injection h with h
    rw [← h]
    exact hal
  | cons op rest ih =>
    cases op with
    | index d chunks embs ex g tc =>
      have hal2 : (index_document init d chunks embs ex g tc).metadata.length =
          (index_document init d chunks embs ex g tc).vectors.length := by
        rw [index_document_eq]
        simp only [List.length_append, List.length_map, recsFrom_length]
        omega
      have := ih (index_document init d chunks embs ex g tc) hal2
      refine ⟨?_, ?_⟩
      · simpa [runOps, applyOp] using this.1
      · intro st2 h
        simp only [runOps, applyOp] at h
        exact this.2 st2 h
    | delete d =>
      have hdel := delete_document_spec init d hal
      have hal2 : (IndexState.mk
          (((init.vectors.zip init.metadata).filter (fun p => keepRec d p.2)).map Prod.fst)
          (init.metadata.filter (keepRec d))).metadata.length =
          (IndexState.mk
          (((init.vectors.zip init.metadata).filter (fun p => keepRec d p.2)).map Prod.fst)
          (init.metadata.filter (keepRec d))).vectors.length := by
        show (init.metadata.filter (keepRec d)).length =
          (((init.vectors.zip init.metadata).filter (fun p => keepRec d p.2)).map
            Prod.fst).length
        rw [List.length_map]
        have hz := congrArg List.length
          (zip_filter_map_snd (keepRec d) init.vectors init.metadata hal.symm)
        rw [List.length_map] at hz
        omega
      have := ih (IndexState.mk
          (((init.vectors.zip init.metadata).filter (fun p => keepRec d p.2)).map Prod.fst)
          (init.metadata.filter (keepRec d))) hal2
      refine ⟨?_, ?_⟩
      · have hrun : runOps init (Op.delete d :: rest) = runOps (IndexState.mk
            (((init.vectors.zip init.metadata).filter (fun p => keepRec d p.2)).map Prod.fst)
            (init.metadata.filter (keepRec d))) rest := by
          simp only [runOps, applyOp, hdel, Option.map_some']
        rw [hrun]
        exact this.1
      · intro st2 h
        have hrun : runOps init (Op.delete d :: rest) = runOps (IndexState.mk
            (((init.vectors.zip init.metadata).filter (fun p => keepRec d p.2)).map Prod.fst)
            (init.metadata.filter (keepRec d))) rest := by
          simp only [runOps, applyOp, hdel, Option.map_some']
        rw [hrun] at h
        exact this.2 st2 h

/-- Witness for `C1_index_alignment` on a concrete operation sequence. -/
theorem C1_index_alignment_witness :
    (runOps emptyState [Op.index "A" [⟨['a'], 0, 1⟩] [[(1 : ℚ)]] [] none 1,
        Op.delete "A"]).isSome ∧
      ∀ st2, runOps emptyState [Op.index "A" [⟨['a'], 0, 1⟩] [[(1 : ℚ)]] [] none 1,
          Op.delete "A"] = some st2 → st2.metadata.length = st2.vectors.length :=
  C1_index_alignment emptyState
    [Op.index "A" [⟨['a'], 0, 1⟩] [[(1 : ℚ)]] [] none 1, Op.delete "A"] rfl

/-- C7: on an aligned state, `delete_document` succeeds and removes exactly
the records whose `document_id` matches together with their aligned vectors,
keeps every other record with its vector in the original relative order, and
returns the number of records removed. -/
theorem C7_delete_exact (st : IndexState) (d : String)
    (hal : st.metadata.length = st.vectors.length) :
    delete_document st d =
      some (⟨((st.vectors.zip st.metadata).filter (fun p => keepRec d p.2)).map Prod.fst,
             st.metadata.filter (keepRec d)⟩,
            (st.metadata.filter (fun m => !(keepRec d m))).length) :=
  delete_document_spec st d hal

/-- Witness for `C7_delete_exact` on a concrete two-document store. -/
theorem C7_delete_exact_witness :
    delete_document ⟨[[(1 : ℚ)], [(2 : ℚ)]], [recA, recB]⟩ "A" =
      some (⟨[[(2 : ℚ)]], [recB]⟩, 1) := by
  have h := C7_delete_exact ⟨[[(1 : ℚ)], [(2 : ℚ)]], [recA, recB]⟩ "A" rfl
  rw [h]
  rfl

/-- C8, counterexample: at the HTTP layer, deleting an unknown document id
is an error — a well-formed absent id yields a 404 response, and a
malformed id is rejected with 400 by `validate_document_id` before the
service is consulted. -/
theorem C8_counterexample :
    deleteDocumentRoute emptyState "missing_0123456789ab" = Except.error 404 ∧
      deleteDocumentRoute emptyState "missing" = Except.error 400 := by
  constructor
  · rfl
  · rfl

/-- C8, amended: for a well-formed document id with no stored records, the
service-layer `delete_document` returns a zero count without error and
leaves the state untouched; the HTTP delete route, however, maps the zero
count to a 404 error response (a malformed id is instead rejected with 400
before the service runs). -/
theorem C8_delete_absent (st : IndexState) (d : String)
    (hvalid : validate_document_id d = true)
    (habs : ∀ m ∈ st.metadata, m.lookup "document_id" ≠ some (PyVal.str d)) :
    delete_document st d = some (st, 0) ∧
      deleteDocumentRoute st d = Except.error 404 := by
  have hall : ∀ p ∈ List.enumFrom 0 st.metadata, keepRec d p.2 = true := by
    intro p hp
    have hne := habs p.2 (mem_of_mem_enumFrom hp)
    simp [keepRec, hne]
  have hfl : (List.enumFrom 0 st.metadata).filter (fun p => keepRec d p.2) =
      List.enumFrom 0 st.metadata := List.filter_eq_self.mpr hall
  have hlen : ((List.enumFrom 0 st.metadata).map Prod.fst).length = st.metadata.length := by
    rw [List.length_map, List.enumFrom_length]
  have hdel : delete_document st d = some (st, 0) := by
    simp only [delete_document, List.enum]
    rw [hfl]
    rw [if_pos (by rw [hlen]; omega)]
  refine ⟨hdel, ?_⟩
  simp [deleteDocumentRoute, hvalid, hdel]

/-- Witness for `C8_delete_absent` on a concrete store without the target
document. -/
theorem C8_delete_absent_witness :
    delete_document ⟨[[(2 : ℚ)]], [recB]⟩ "docA_0123456789ab" =
        some (⟨[[(2 : ℚ)]], [recB]⟩, 0) ∧
      deleteDocumentRoute ⟨[[(2 : ℚ)]], [recB]⟩ "docA_0123456789ab" =
        Except.error 404 :=
  C8_delete_absent ⟨[[(2 : ℚ)]], [recB]⟩ "docA_0123456789ab" (by decide)
    (by
      intro m hm
      rw [List.mem_singleton] at hm
      subst hm
      decide)

/-- Every scored pair carries a position in `[i, i + number of vectors)`. -/
lemma scoredFrom_bounds (q : List ℚ) :
    ∀ (vecs : List (List ℚ)) (i : Nat) (p : ℚ × Int), p ∈ scoredFrom q i vecs →
      (i : Int) ≤ p.2 ∧ p.2 < ((i + vecs.length : Nat) : Int) := by
  intro vecs
  induction vecs with
  | nil => intro i p h; cases h
  | cons v rest ih =>
    intro i p h
    simp only [scoredFrom] at h
    cases h with
    | head =>
      refine ⟨le_refl _, ?_⟩
      show (i : Int) < ((i + (v :: rest).length : Nat) : Int)
      rw [List.length_cons]
      push_cast
      omega
    | tail _ h2 =>
      have := ih (i + 1) p h2
      rw [List.length_cons]
      push_cast at this ⊢
      omega

/-- Positions are strictly increasing along the scored list. -/
lemma scoredFrom_pairwise (q : List ℚ) :
    ∀ (vecs : List (List ℚ)) (i : Nat),
      List.Pairwise (fun a b => a.2 < b.2) (scoredFrom q i vecs) := by
  intro vecs
  induction vecs with
  | nil => intro i; exact List.Pairwise.nil
  | cons v rest ih =>
    intro i
    simp only [scoredFrom]
    refine List.Pairwise.cons ?_ (ih (i + 1))
    intro b hb
    have h1 := (scoredFrom_bounds q rest (i + 1) b hb).1
    push_cast at h1
    show (i : Int) < b.2
    omega

/-- Membership through stable insertion. -/
lemma mem_insertDesc {x p : ℚ × Int} :
    ∀ {l : List (ℚ × Int)}, x ∈ insertDesc p l ↔ x = p ∨ x ∈ l := by
  intro l
  induction l with
  | nil => simp [insertDesc]
  | cons b rest ih =>
    simp only [insertDesc]
    by_cases hb : b.1 < p.1
    · rw [if_pos hb]
      simp only [List.mem_cons]
    · rw [if_neg hb]
      simp only [List.mem_cons, ih]
      tauto

/-- The order `pairLT` is transitive. -/
lemma pairLT_trans {a b c : ℚ × Int} (h1 : pairLT a b) (h2 : pairLT b c) : pairLT a c := by
  rcases h1 with h1 | ⟨h1e, h1i⟩ <;> rcases h2 with h2 | ⟨h2e, h2i⟩
  · exact Or.inl (lt_trans h2 h1)
  · exact Or.inl (h2e ▸ h1)
  · exact Or.inl (h1e ▸ h2)
  · exact Or.inr ⟨h1e.trans h2e, lt_trans h1i h2i⟩

/-- Inserting an element whose position exceeds every present position
preserves the strict (score desc, position asc) order. -/
lemma insertDesc_pairwise {p : ℚ × Int} :
    ∀ {l : List (ℚ × Int)}, List.Pairwise pairLT l → (∀ x ∈ l, x.2 < p.2) →
      List.Pairwise pairLT (insertDesc p l) := by
  intro l
  induction l with
  | nil => intro _ _; simp [insertDesc, List.Pairwise.nil]
  | cons b rest ih =>
    intro hp hidx
    rw [List.pairwise_cons] at hp
    simp only [insertDesc]
    by_cases hb : b.1 < p.1
    · rw [if_pos hb]
      refine List.Pairwise.cons ?_ (List.Pairwise.cons hp.1 hp.2)
      intro y hy
      cases List.mem_cons.mp hy with
      | inl hy2 =>
        subst hy2
        exact Or.inl hb
      | inr hy2 =>
        have hby := hp.1 y hy2
        exact pairLT_trans (Or.inl hb) hby
    · rw [if_neg hb]
      refine List.Pairwise.cons ?_ ?_
      · intro y hy
        cases mem_insertDesc.mp hy with
        | inl hy2 =>
          subst hy2
          rcases lt_or_eq_of_le (le_of_not_lt hb) with hlt | heq
          · exact Or.inl hlt
          · exact Or.inr ⟨heq.symm, hidx b (List.mem_cons_self b rest)⟩
        | inr hy2 => exact hp.1 y hy2
      · exact ih hp.2 (fun x hx => hidx x (List.mem_cons_of_mem b hx))

/-- The insertion-sort fold keeps the accumulated list strictly ordered,
provided the unprocessed elements have ever-larger positions. -/
lemma foldl_insertDesc_pairwise :
    ∀ (l acc : List (ℚ × Int)), List.Pairwise pairLT acc →
      (∀ x ∈ acc, ∀ y ∈ l, x.2 < y.2) →
      List.Pairwise (fun a b => a.2 < b.2) l →
      List.Pairwise pairLT (l.foldl (fun acc2 p => insertDesc p acc2) acc) := by
  intro l
  induction l with
  | nil => intro acc h _ _; exact h
  | cons y l2 ih =>
    intro acc hacc hsep hl
    rw [List.pairwise_cons] at hl
    simp only [List.foldl_cons]
    refine ih (insertDesc y acc) ?_ ?_ hl.2
    · exact insertDesc_pairwise hacc
        (fun x hx => hsep x hx y (List.mem_cons_self y l2))
    · intro x hx z hz
      cases mem_insertDesc.mp hx with
      | inl hx2 =>
        subst hx2
        exact hl.1 z hz
      | inr hx2 => exact hsep x hx2 z (List.mem_cons_of_mem y hz)

/-- The sorted scored list is strictly ordered by (score desc, position
asc). -/
lemma sortDesc_pairwise (q : List ℚ) (vecs : List (List ℚ)) :
    List.Pairwise pairLT (sortDesc (scoredFrom q 0 vecs)) := by
  refine foldl_insertDesc_pairwise (scoredFrom q 0 vecs) [] List.Pairwise.nil ?_
    (scoredFrom_pairwise q vecs 0)
  intro x hx
  cases hx

/-- Sorting preserves membership. -/
lemma mem_sortDesc {x : ℚ × Int} :
    ∀ {l acc : List (ℚ × Int)},
      x ∈ l.foldl (fun acc2 p => insertDesc p acc2) acc ↔ x ∈ acc ∨ x ∈ l := by
  intro l
  induction l with
  | nil => intro acc; simp
  | cons y l2 ih =>
    intro acc
    simp only [List.foldl_cons]
    rw [ih]
    simp only [mem_insertDesc, List.mem_cons]
    tauto

/-- Every pair kept by the search filter points at a valid stored position
and clears the threshold. -/
lemma keptPairs_valid (vecs : List (List ℚ)) (q : List ℚ) (k : Nat) (th : ℚ) :
    ∀ p ∈ keptPairs vecs q k th,
      0 ≤ p.2 ∧ p.2 < (vecs.length : Int) ∧ th ≤ p.1 := by
  intro p hp
  rw [keptPairs, List.mem_filter] at hp
  obtain ⟨hmem, hkeep⟩ := hp
  have hkeep2 : ¬ (p.2 < 0) ∧ ¬ (p.1 < th) := by
    simp only [keepHit, Bool.not_eq_true', Bool.or_eq_false_iff, decide_eq_false_iff_not] at hkeep
    exact hkeep
  rw [faissSearch, List.mem_append] at hmem
  cases hmem with
  | inl htake =>
    have hsorted : p ∈ sortDesc (scoredFrom q 0 vecs) := List.take_subset _ _ htake
    have hscored : p ∈ scoredFrom q 0 vecs := by
      rw [sortDesc] at hsorted
      rcases mem_sortDesc.mp hsorted with h | h
      · cases h
      · exact h
    have := scoredFrom_bounds q vecs 0 p hscored
    refine ⟨this.1, ?_, le_of_not_lt hkeep2.2⟩
    have h2 := this.2
    simpa using h2
  | inr hpad =>
    exfalso
    have := List.eq_of_mem_replicate hpad
    rw [this] at hkeep2
    exact hkeep2.1 (by norm_num)

/-- The padding pairs are all dropped by the filter. -/
lemma keptPairs_eq_filter_take (vecs : List (List ℚ)) (q : List ℚ) (k : Nat) (th : ℚ) :
    keptPairs vecs q k th =
      ((sortDesc (scoredFrom q 0 vecs)).take k).filter (keepHit th) := by
  rw [keptPairs, faissSearch, List.filter_append]
  have hpad : (List.replicate (k - (sortDesc (scoredFrom q 0 vecs)).length)
      ((0 : ℚ), (-1 : Int))).filter (keepHit th) = [] := by
    apply List.filter_eq_nil.mpr
    intro p hp
    have := List.eq_of_mem_replicate hp
    subst this
    simp [keepHit]
  rw [hpad, List.append_nil]

/-- The kept pairs inherit the strict (score desc, position asc) order. -/
lemma keptPairs_pairwise (vecs : List (List ℚ)) (q : List ℚ) (k : Nat) (th : ℚ) :
    List.Pairwise pairLT (keptPairs vecs q k th) := by
  rw [keptPairs_eq_filter_take]
  exact List.Pairwise.sublist ((List.filter_sublist _).trans (List.take_sublist _ _))
    (sortDesc_pairwise q vecs)

/-- At most `k` pairs survive. -/
lemma keptPairs_length_le (vecs : List (List ℚ)) (q : List ℚ) (k : Nat) (th : ℚ) :
    (keptPairs vecs q k th).length ≤ k := by
  rw [keptPairs_eq_filter_take]
  calc (((sortDesc (scoredFrom q 0 vecs)).take k).filter (keepHit th)).length
      ≤ ((sortDesc (scoredFrom q 0 vecs)).take k).length := List.length_filter_le _ _
    _ ≤ k := List.length_take_le _ _

/-- Metadata lookup succeeds on every valid pair list and reproduces the
pairs' scores in order. -/
lemma lookupHits_total (md : List IndexRecord) :
    ∀ (pairs : List (ℚ × Int)), (∀ p ∈ pairs, p.2.toNat < md.length) →
      ∃ res, lookupHits md pairs = some res ∧ res.length = pairs.length ∧
        res.map Prod.snd = pairs.map Prod.fst := by
  intro pairs
  induction pairs with
  | nil => intro _; exact ⟨[], rfl, rfl, rfl⟩
  | cons p rest ih =>
    intro hvalid
    have hp := hvalid p (List.mem_cons_self p rest)
    have hget : md.get? p.2.toNat ≠ none := by
      intro hnone
      have := List.get?_eq_none.mp hnone
      omega
    cases hm : md.get? p.2.toNat with
    | none => exact absurd hm hget
    | some m =>
      obtain ⟨res, hres, hlen, hmap⟩ :=
        ih (fun x hx => hvalid x (List.mem_cons_of_mem p hx))
      refine ⟨(m, p.1) :: res, ?_, ?_, ?_⟩
      · simp only [lookupHits, hm, hres]
      · simp [hlen]
      · simp [hmap]

/-- C6: on an aligned state, `search` never fails; an empty store yields an
empty result; the kept (score, index) pairs are in strictly descending score
order with ties broken by ascending stored position (stable insertion
order); and any returned result has at most `top_k` entries, every returned
score clears the threshold, and the returned scores are exactly the kept
pairs' scores in order. -/
theorem C6_search_contract (st : IndexState) (q : List ℚ) (top_k : Nat) (threshold : ℚ)
    (hal : st.metadata.length = st.vectors.length) :
    (search st q top_k threshold).isSome ∧
      (st.vectors = [] → search st q top_k threshold = some []) ∧
      List.Pairwise pairLT (keptPairs st.vectors q top_k threshold) ∧
      ∀ res, search st q top_k threshold = some res →
        res.length ≤ top_k ∧ (∀ hit ∈ res, threshold ≤ hit.2) ∧
        res.map Prod.snd = (keptPairs st.vectors q top_k threshold).map Prod.fst := by
  have hvalid : ∀ p ∈ keptPairs st.vectors q top_k threshold,
      p.2.toNat < st.metadata.length := by
    intro p hp
    have := keptPairs_valid st.vectors q top_k threshold p hp
    rw [hal]
    omega
  obtain ⟨res0, hres0, hlen0, hmap0⟩ := lookupHits_total st.metadata _ hvalid
  refine ⟨?_, ?_, keptPairs_pairwise st.vectors q top_k threshold, ?_⟩
  · by_cases hz : st.vectors.length = 0
    · simp [search, hz]
    · simp [search, hz, hres0]
  · intro hempty
    simp [search, hempty]
  · intro res hres
    by_cases hz : st.vectors.length = 0
    · rw [search, if_pos hz] at hres
      injection hres with hres
      subst hres
      have hvnil : st.vectors = [] := List.eq_nil_of_length_eq_zero hz
      have hkept : keptPairs st.vectors q top_k threshold = [] := by
        rw [keptPairs_eq_filter_take, hvnil]
        simp [sortDesc, scoredFrom]
      refine ⟨by simp, by simp, by simp [hkept]⟩
    · rw [search, if_neg hz] at hres
      rw [hres0] at hres
      injection hres with hres
      subst hres
      refine ⟨?_, ?_, hmap0⟩
      · rw [hlen0]
        exact keptPairs_length_le st.vectors q top_k threshold
      · intro hit hhit
        have hscore : hit.2 ∈ res0.map Prod.snd := List.mem_map_of_mem Prod.snd hhit
        rw [hmap0] at hscore
        obtain ⟨p, hp, hps⟩ := List.mem_map.mp hscore
        rw [← hps]
        exact (keptPairs_valid st.vectors q top_k threshold p hp).2.2

/-- C10: with more requested results than stored vectors, the FAISS padding
indices are skipped: every kept pair addresses a valid metadata position and
the search completes without error. -/
theorem C10_search_valid_positions (st : IndexState) (q : List ℚ) (top_k : Nat)
    (threshold : ℚ) (hal : st.metadata.length = st.vectors.length)
    (hne : st.vectors ≠ []) (hk : st.vectors.length < top_k) :
    (search st q top_k threshold).isSome ∧
      ∀ p ∈ keptPairs st.vectors q top_k threshold,
        0 ≤ p.2 ∧ p.2.toNat < st.metadata.length := by
  have hvalid : ∀ p ∈ keptPairs st.vectors q top_k threshold,
      0 ≤ p.2 ∧ p.2.toNat < st.metadata.length := by
    intro p hp
    have := keptPairs_valid st.vectors q top_k threshold p hp
    rw [hal]
    exact ⟨this.1, by omega⟩
  obtain ⟨res0, hres0, _, _⟩ :=
    lookupHits_total st.metadata _ (fun p hp => (hvalid p hp).2)
  refine ⟨?_, hvalid⟩
  by_cases hz : st.vectors.length = 0
  · simp [search, hz]
  · simp [search, hz, hres0]

/-- Witness for `C6_search_contract` on a concrete two-vector store. -/
theorem C6_search_contract_witness :
    (search ⟨[[(1 : ℚ)], [(3 : ℚ)]], [recA, recB]⟩ [(1 : ℚ)] 5 0).isSome ∧
      ((⟨[[(1 : ℚ)], [(3 : ℚ)]], [recA, recB]⟩ : IndexState).vectors = [] →
        search ⟨[[(1 : ℚ)], [(3 : ℚ)]], [recA, recB]⟩ [(1 : ℚ)] 5 0 = some []) ∧
      List.Pairwise pairLT
        (keptPairs (⟨[[(1 : ℚ)], [(3 : ℚ)]], [recA, recB]⟩ : IndexState).vectors
          [(1 : ℚ)] 5 0) ∧
      ∀ res, search ⟨[[(1 : ℚ)], [(3 : ℚ)]], [recA, recB]⟩ [(1 : ℚ)] 5 0 = some res →
        res.length ≤ 5 ∧ (∀ hit ∈ res, (0 : ℚ) ≤ hit.2) ∧
        res.map Prod.snd =
          (keptPairs (⟨[[(1 : ℚ)], [(3 : ℚ)]], [recA, recB]⟩ : IndexState).vectors
            [(1 : ℚ)] 5 0).map Prod.fst :=
  C6_search_contract ⟨[[(1 : ℚ)], [(3 : ℚ)]], [recA, recB]⟩ [(1 : ℚ)] 5 0 rfl

/-- Witness for `C10_search_valid_positions` on a one-vector store with
`top_k = 3`. -/
theorem C10_search_valid_positions_witness :
    (search ⟨[[(1 : ℚ)]], [recA]⟩ [(1 : ℚ)] 3 0).isSome ∧
      ∀ p ∈ keptPairs (⟨[[(1 : ℚ)]], [recA]⟩ : IndexState).vectors [(1 : ℚ)] 3 0,
        0 ≤ p.2 ∧ p.2.toNat < (⟨[[(1 : ℚ)]], [recA]⟩ : IndexState).metadata.length :=
  C10_search_valid_positions ⟨[[(1 : ℚ)]], [recA]⟩ [(1 : ℚ)] 3 0 rfl
    (List.cons_ne_nil _ _) (by decide)

lemma digitVal_digitChar {d : Nat} (h : d < 10) : digitVal (Nat.digitChar d) = d := by
  interval_cases d <;> rfl

lemma toDigitsCore_foldl :
    ∀ (fuel n : Nat) (acc : List Char) (a : Nat), n < fuel →
      ∃ e : Nat, (Nat.toDigitsCore 10 fuel n acc).foldl (fun x c => x * 10 + digitVal c) a =
        acc.foldl (fun x c => x * 10 + digitVal c) (a * 10 ^ e + n) ∧ n < 10 ^ e := by
  intro fuel
  induction fuel with
  | zero => intro n acc a h; exact absurd h (Nat.not_lt_zero n)
  | succ fuel ih =>
    intro n acc a h
    have hr : n % 10 < 10 := Nat.mod_lt _ (by norm_num)
    have hdm : 10 * (n / 10) + n % 10 = n := Nat.div_add_mod n 10
    by_cases hq : n / 10 = 0
    · have hn10 : n < 10 := by omega
      have hunfold : Nat.toDigitsCore 10 (fuel + 1) n acc = Nat.digitChar (n % 10) :: acc := by
        simp only [Nat.toDigitsCore, hq]
        rfl
      refine ⟨1, ?_, by omega⟩
      rw [hunfold, List.foldl_cons, digitVal_digitChar hr]
      have : a * 10 ^ 1 + n = a * 10 + n % 10 := by
        rw [pow_one]
        omega
      rw [this]
    · have hql : n / 10 < fuel := by
        have h1 : n / 10 < n := Nat.div_lt_self (by omega) (by norm_num)
        omega
      have hunfold : Nat.toDigitsCore 10 (fuel + 1) n acc =
          Nat.toDigitsCore 10 fuel (n / 10) (Nat.digitChar (n % 10) :: acc) := by
        simp only [Nat.toDigitsCore, hq]
        rfl
      obtain ⟨e, he, hb⟩ := ih (n / 10) (Nat.digitChar (n % 10) :: acc) a hql
      refine ⟨e + 1, ?_, by rw [pow_succ]; omega⟩
      rw [hunfold, he, List.foldl_cons, digitVal_digitChar hr]
      have : (a * 10 ^ e + n / 10) * 10 + n % 10 = a * 10 ^ (e + 1) + n := by
        calc (a * 10 ^ e + n / 10) * 10 + n % 10
            = a * (10 ^ e * 10) + (10 * (n / 10) + n % 10) := by ring
          _ = a * 10 ^ (e + 1) + n := by rw [hdm, pow_succ]
      rw [this]

lemma decodeDigits_toDigits (n : Nat) : decodeDigits (Nat.toDigits 10 n) = n := by
  obtain ⟨e, he, _⟩ := toDigitsCore_foldl (n + 1) n [] 0 (Nat.lt_succ_self n)
  show (Nat.toDigitsCore 10 (n + 1) n []).foldl (fun x c => x * 10 + digitVal c) 0 = n
  rw [he]
  simp

lemma Nat_repr_data_inj {m n : Nat} (h : (Nat.repr m).data = (Nat.repr n).data) : m = n := by
  have hm : (Nat.repr m).data = Nat.toDigits 10 m := rfl
  have hn : (Nat.repr n).data = Nat.toDigits 10 n := rfl
  rw [hm, hn] at h
  have := congrArg decodeDigits h
  rwa [decodeDigits_toDigits, decodeDigits_toDigits] at this

/-- Two chunk ids of the same document agree only on equal ordinals. -/
lemma mkChunkId_inj {d : String} {i j : Nat} (h : mkChunkId d i = mkChunkId d j) : i = j := by
  have h2 := congrArg String.data h
  simp only [mkChunkId, String.data_append, List.append_assoc] at h2
  have h3 := List.append_cancel_left h2
  have h4 := List.append_cancel_left h3
  exact Nat_repr_data_inj h4

/-- Inserting a binding for a different key leaves a lookup unchanged. -/
lemma dictInsert_lookup_ne (k k2 : String) (v : PyVal) (hne : k ≠ k2) :
    ∀ m : List (String × PyVal), (dictInsert m k2 v).lookup k = m.lookup k := by
  intro m
  induction m with
  | nil =>
    have hb : (k == k2) = false := beq_eq_false_iff_ne.mpr hne
    simp only [dictInsert, List.lookup, hb]
  | cons kv rest ih =>
    obtain ⟨k3, v3⟩ := kv
    simp only [dictInsert]
    by_cases h3 : k3 = k2
    · rw [if_pos h3]
      have hb : (k == k3) = false := beq_eq_false_iff_ne.mpr (by rw [h3]; exact hne)
      simp only [List.lookup, hb]
    · rw [if_neg h3]
      cases hk : (k == k3) with
      | true => simp only [List.lookup, hk]
      | false => simp only [List.lookup, hk, ih]

/-- Merging an extra dict that lacks a key leaves that key's lookup on the
base dict. -/
lemma dictMerge_lookup_not_mem (k : String) :
    ∀ (extra base : List (String × PyVal)), k ∉ extra.map Prod.fst →
      (dictMerge base extra).lookup k = base.lookup k := by
  intro extra
  induction extra with
  | nil => intro base _; rfl
  | cons kv rest ih =>
    intro base hk
    simp only [List.map_cons, List.mem_cons, not_or] at hk
    show (dictMerge (dictInsert base kv.1 kv.2) rest).lookup k = _
    rw [ih _ hk.2, dictInsert_lookup_ne k kv.1 kv.2 hk.1]

/-- When the caller metadata does not override it, the stored record keeps
the base `document_id` entry. -/
lemma chunkRecord_lookup_document_id (d : String) (i : Nat) (c : Chunk)
    (g : Option (List (Option Int))) (tc : Nat) (ex : List (String × PyVal))
    (hex : "document_id" ∉ ex.map Prod.fst) :
    (chunkRecord d i c g tc ex).lookup "document_id" = some (PyVal.str d) := by
  show (dictMerge _ ex).lookup "document_id" = _
  rw [dictMerge_lookup_not_mem _ ex _ hex]
  rfl

/-- When the caller metadata does not override it, the stored record keeps
the generated `chunk_id` entry. -/
lemma chunkRecord_lookup_chunk_id (d : String) (i : Nat) (c : Chunk)
    (g : Option (List (Option Int))) (tc : Nat) (ex : List (String × PyVal))
    (hex : "chunk_id" ∉ ex.map Prod.fst) :
    (chunkRecord d i c g tc ex).lookup "chunk_id" = some (PyVal.str (mkChunkId d i)) := by
  show (dictMerge _ ex).lookup "chunk_id" = _
  rw [dictMerge_lookup_not_mem _ ex _ hex]
  rfl

/-- Every record of one ingest run carries the document id and a chunk id
with ordinal at least the starting ordinal, when the caller metadata does
not override the reserved keys. -/
lemma recsFrom_fields (d : String) (g : Option (List (Option Int))) (tc : Nat)
    (ex : List (String × PyVal)) (hexc : "chunk_id" ∉ ex.map Prod.fst)
    (hexd : "document_id" ∉ ex.map Prod.fst) :
    ∀ (pairs : List (Chunk × List ℚ)) (i : Nat) (m : IndexRecord),
      m ∈ recsFrom d g tc ex i pairs →
      m.lookup "document_id" = some (PyVal.str d) ∧
        ∃ j, i ≤ j ∧ m.lookup "chunk_id" = some (PyVal.str (mkChunkId d j)) := by
  intro pairs
  induction pairs with
  | nil => intro i m h; cases h
  | cons p rest ih =>
    intro i m h
    cases p with
    | mk c emb =>
      simp only [recsFrom] at h
      cases h with
      | head =>
        exact ⟨chunkRecord_lookup_document_id d i c g tc ex hexd, i, le_refl i,
          chunkRecord_lookup_chunk_id d i c g tc ex hexc⟩
      | tail _ h2 =>
        obtain ⟨hdoc, j, hj, hid⟩ := ih (i + 1) m h2
        exact ⟨hdoc, j, by omega, hid⟩

/-- The chunk ids of one ingest run are pairwise distinct (no splat
override of the reserved keys). -/
lemma recsFrom_ids_pairwise (d : String) (g : Option (List (Option Int))) (tc : Nat)
    (ex : List (String × PyVal)) (hexc : "chunk_id" ∉ ex.map Prod.fst)
    (hexd : "document_id" ∉ ex.map Prod.fst) :
    ∀ (pairs : List (Chunk × List ℚ)) (i : Nat),
      List.Pairwise (fun a b => a ≠ b)
        ((recsFrom d g tc ex i pairs).map (fun m => m.lookup "chunk_id")) := by
  intro pairs
  induction pairs with
  | nil => intro i; exact List.Pairwise.nil
  | cons p rest ih =>
    intro i
    cases p with
    | mk c emb =>
      simp only [recsFrom, List.map_cons]
      refine List.Pairwise.cons ?_ (ih (i + 1))
      intro b hb
      obtain ⟨m, hm, hbm⟩ := List.mem_map.mp hb
      obtain ⟨_, j, hj, hid⟩ := recsFrom_fields d g tc ex hexc hexd rest (i + 1) m hm
      intro hcontra
      rw [← hbm, hid, chunkRecord_lookup_chunk_id d i c g tc ex hexc] at hcontra
      have h2 := PyVal.str.inj (Option.some.inj hcontra)
      have := mkChunkId_inj h2
      omega

/-- The chunk ids of one ingest run starting at ordinal `i`, in order (no
splat override of `chunk_id`). -/
lemma recsFrom_ids_eq (d : String) (g : Option (List (Option Int))) (tc : Nat)
    (ex : List (String × PyVal)) (hexc : "chunk_id" ∉ ex.map Prod.fst) :
    ∀ (pairs : List (Chunk × List ℚ)) (i : Nat),
      (recsFrom d g tc ex i pairs).map (fun m => m.lookup "chunk_id") =
        (List.range pairs.length).map
          (fun j => some (PyVal.str (mkChunkId d (i + j)))) := by
  intro pairs
  induction pairs with
  | nil => intro i; rfl
  | cons p rest ih =>
    intro i
    cases p with
    | mk c emb =>
      simp only [recsFrom, List.map_cons, List.length_cons, List.range_succ_eq_map,
        List.map_map]
      refine congrArg₂ _ ?_ ?_
      · rw [chunkRecord_lookup_chunk_id d i c g tc ex hexc]
        show some (PyVal.str (mkChunkId d i)) = some (PyVal.str (mkChunkId d (i + 0)))
        rw [Nat.add_zero]
      · rw [ih (i + 1)]
        refine List.map_congr_left ?_
        intro j hj
        have hadd : i + 1 + j = i + (j + 1) := by omega
        show some (PyVal.str (mkChunkId d (i + 1 + j))) =
          some (PyVal.str (mkChunkId d (i + (j + 1))))
        rw [hadd]

/-- Whatever branch `delete_document` takes, the surviving metadata is the
filter of the original metadata (no alignment assumption needed). -/
lemma delete_metadata_filter {st st2 : IndexState} {d : String} {c : Nat}
    (h : delete_document st d = some (st2, c)) :
    st2.metadata = st.metadata.filter (keepRec d) := by
  have hklen : (((List.enumFrom 0 st.metadata).filter (fun p => keepRec d p.2)).map
      Prod.fst).length = (st.metadata.filter (keepRec d)).length := by
    rw [List.length_map]
    have h2 := congrArg List.length (enumFrom_filter_map_snd (keepRec d) st.metadata 0)
    rw [List.length_map] at h2
    exact h2
  simp only [delete_document, List.enum] at h
  split at h
  · next h0 =>
    injection h with h1
    have h2 := congrArg Prod.fst h1
    simp only at h2
    rw [← h2]
    rw [hklen] at h0
    have hle := List.length_filter_le (keepRec d) st.metadata
    have hall : ∀ m ∈ st.metadata, keepRec d m = true :=
      (List.filter_length_eq_length).mp (by omega)
    exact (List.filter_eq_self.mpr hall).symm
  · split at h
    · next hnil =>
      injection h with h1
      have h2 := congrArg Prod.fst h1
      simp only at h2
      rw [← h2]
      have hkp : (List.enumFrom 0 st.metadata).filter (fun p => keepRec d p.2) = [] :=
        List.map_eq_nil.mp hnil
      show ([] : List IndexRecord) = _
      rw [← enumFrom_filter_map_snd (keepRec d) st.metadata 0, hkp]
      rfl
    · split at h
      · cases h
      · next kept hrec =>
        injection h with h1
        have h2 := congrArg Prod.fst h1
        simp only at h2
        rw [← h2]
        show ((List.enumFrom 0 st.metadata).filter (fun p => keepRec d p.2)).map Prod.snd = _
        rw [enumFrom_filter_map_snd (keepRec d) st.metadata 0]

/-- Invariant run: if no document is ever indexed while already present and
no caller metadata splat overrides the reserved keys, chunk-id uniqueness
per document is preserved by every operation. -/
lemma runOps_uniq :
    ∀ (ops : List Op) (seen : List String) (st st2 : IndexState),
      (∀ m ∈ st.metadata, ∀ s, m.lookup "document_id" = some (PyVal.str s) → s ∈ seen) →
      (∀ dd, List.Pairwise (fun a b => a ≠ b) (chunkIdsOf st dd)) →
      validSeq seen ops = true →
      runOps st ops = some st2 →
      ∀ dd, List.Pairwise (fun a b => a ≠ b) (chunkIdsOf st2 dd) := by
  intro ops
  induction ops with
  | nil =>
    intro seen st st2 hseen huniq hv hr dd
    simp only [runOps] at hr
    injection hr with hr
    rw [← hr]
    exact huniq dd
  | cons op rest ih =>
    intro seen st st2 hseen huniq hv hr dd
    cases op with
    | index d chunks embs ex g tc =>
      simp only [validSeq, Bool.and_eq_true, Bool.not_eq_true'] at hv
      obtain ⟨⟨⟨hcont, hexc0⟩, hexd0⟩, hv2⟩ := hv
      have hexc : "chunk_id" ∉ ex.map Prod.fst := by
        intro hmem
        have h1 : (ex.map Prod.fst).contains "chunk_id" = true := by
          simpa using hmem
        rw [h1] at hexc0
        cases hexc0
      have hexd : "document_id" ∉ ex.map Prod.fst := by
        intro hmem
        have h1 : (ex.map Prod.fst).contains "document_id" = true := by
          simpa using hmem
        rw [h1] at hexd0
        cases hexd0
      have hdnotin : d ∉ seen := by
        intro hmem
        have h1 : seen.contains d = true := by
          simpa using hmem
        rw [h1] at hcont
        cases hcont
      have hnod : ∀ m ∈ st.metadata, m.lookup "document_id" ≠ some (PyVal.str d) := by
        intro m hm hcontra
        exact hdnotin (hseen m hm d hcontra)
      have heq := index_document_eq st d chunks embs ex g tc
      have hseen2 : ∀ m ∈ (index_document st d chunks embs ex g tc).metadata,
          ∀ s, m.lookup "document_id" = some (PyVal.str s) → s ∈ d :: seen := by
        rw [heq]
        intro m hm s hs
        rcases List.mem_append.mp hm with h1 | h2
        · exact List.mem_cons_of_mem d (hseen m h1 s hs)
        · have hdoc := (recsFrom_fields d g tc ex hexc hexd _ 0 m h2).1
          rw [hdoc] at hs
          have h3 : s = d := (PyVal.str.inj (Option.some.inj hs)).symm
          rw [h3]
          exact List.mem_cons_self d seen
      have huniq2 : ∀ dd2, List.Pairwise (fun a b => a ≠ b)
          (chunkIdsOf (index_document st d chunks embs ex g tc) dd2) := by
        intro dd2
        rw [chunkIdsOf, heq]
        show List.Pairwise _ (((st.metadata ++ recsFrom d g tc ex 0 (chunks.zip embs)).filter
          (fun m => decide (m.lookup "document_id" = some (PyVal.str dd2)))).map
          (fun m => m.lookup "chunk_id"))
        rw [List.filter_append, List.map_append]
        by_cases hdd : dd2 = d
        · rw [hdd]
          have hold : st.metadata.filter
              (fun m => decide (m.lookup "document_id" = some (PyVal.str d))) = [] := by
            apply List.filter_eq_nil.mpr
            intro m hm hc
            exact hnod m hm (of_decide_eq_true hc)
          have hnew : (recsFrom d g tc ex 0 (chunks.zip embs)).filter
              (fun m => decide (m.lookup "document_id" = some (PyVal.str d))) =
              recsFrom d g tc ex 0 (chunks.zip embs) := by
            apply List.filter_eq_self.mpr
            intro m hm
            have hdoc := (recsFrom_fields d g tc ex hexc hexd _ 0 m hm).1
            exact decide_eq_true hdoc
          rw [hold, List.map_nil, List.nil_append, hnew]
          exact recsFrom_ids_pairwise d g tc ex hexc hexd _ 0
        · have hnew : (recsFrom d g tc ex 0 (chunks.zip embs)).filter
              (fun m => decide (m.lookup "document_id" = some (PyVal.str dd2))) = [] := by
            apply List.filter_eq_nil.mpr
            intro m hm hc
            have hdoc := (recsFrom_fields d g tc ex hexc hexd _ 0 m hm).1
            have hceq := of_decide_eq_true hc
            rw [hdoc] at hceq
            exact hdd (PyVal.str.inj (Option.some.inj hceq)).symm
          rw [hnew, List.map_nil, List.append_nil]
          exact huniq dd2
      have hrun2 : runOps st (Op.index d chunks embs ex g tc :: rest) =
          runOps (index_document st d chunks embs ex g tc) rest := rfl
      rw [hrun2] at hr
      exact ih (d :: seen) _ st2 hseen2 huniq2 hv2 hr dd
    | delete d =>
      simp only [validSeq] at hv
      simp only [runOps, applyOp] at hr
      cases hdel : delete_document st d with
      | none =>
        rw [hdel] at hr
        simp only [Option.map_none'] at hr
        cases hr
      | some pr =>
        obtain ⟨st3, c⟩ := pr
        rw [hdel] at hr
        simp only [Option.map_some'] at hr
        have hmeta := delete_metadata_filter hdel
        have hseen2 : ∀ m ∈ st3.metadata, ∀ s,
            m.lookup "document_id" = some (PyVal.str s) →
            s ∈ seen.filter (fun s2 => s2 != d) := by
          intro m hm s hs
          rw [hmeta] at hm
          obtain ⟨hmem, hkeep⟩ := List.mem_filter.mp hm
          apply List.mem_filter.mpr
          refine ⟨hseen m hmem s hs, ?_⟩
          simp only [keepRec, Bool.not_eq_true', decide_eq_false_iff_not] at hkeep
          have hsd : s ≠ d := by
            intro hc
            rw [hc] at hs
            exact hkeep hs
          exact bne_iff_ne.mpr hsd
        have huniq2 : ∀ dd2, List.Pairwise (fun a b => a ≠ b) (chunkIdsOf st3 dd2) := by
          intro dd2
          have hids : chunkIdsOf st3 dd2 = (((st.metadata.filter (keepRec d)).filter
              (fun m => decide (m.lookup "document_id" = some (PyVal.str dd2)))).map
              (fun m => m.lookup "chunk_id")) := by
            rw [chunkIdsOf, hmeta]
          rw [hids]
          refine List.Pairwise.sublist ?_ (huniq dd2)
          exact List.Sublist.map _ (List.Sublist.filter _ (List.filter_sublist _))
        exact ih _ _ st2 hseen2 huniq2 hv hr dd

/-- C3, amended: provided no document id is indexed twice without an
intervening delete of that id and the caller metadata never overrides the
reserved `chunk_id` / `document_id` keys through the `**(metadata or {})`
splat (`validSeq`), after any operation sequence the chunk ids of the stored
records of every document are pairwise distinct; and within one ingest run
whose caller metadata does not override `chunk_id`, the appended records
carry exactly the contiguous ordinals `0, 1, ...` in
`chunk_id = "{document_id}_{ordinal}"`. -/
theorem C3_chunk_id_uniqueness (ops : List Op) (st2 : IndexState) (st : IndexState)
    (d : String) (chunks : List Chunk) (embs : List (List ℚ))
    (ex : List (String × PyVal)) (g : Option (List (Option Int))) (tc : Nat)
    (hv : validSeq [] ops = true) (hr : runOps emptyState ops = some st2)
    (hexc : "chunk_id" ∉ ex.map Prod.fst) :
    (∀ dd, List.Pairwise (fun a b => a ≠ b) (chunkIdsOf st2 dd)) ∧
      ((index_document st d chunks embs ex g tc).metadata.drop st.metadata.length).map
          (fun m => m.lookup "chunk_id") =
        (List.range (chunks.zip embs).length).map
          (fun j => some (PyVal.str (mkChunkId d j))) := by
  constructor
  · exact runOps_uniq ops [] emptyState st2
      (fun m hm => absurd hm (List.not_mem_nil m))
      (fun dd => List.Pairwise.nil) hv hr
  · rw [index_document_eq]
    show ((st.metadata ++ recsFrom d g tc ex 0 (chunks.zip embs)).drop
      st.metadata.length).map (fun m => m.lookup "chunk_id") = _
    rw [List.drop_left, recsFrom_ids_eq d g tc ex hexc]
    refine List.map_congr_left ?_
    intro j hj
    show some (PyVal.str (mkChunkId d (0 + j))) = some (PyVal.str (mkChunkId d j))
    rw [Nat.zero_add]

/-- C3, counterexamples: indexing the same document id twice (no delete in
between) stores two records for `"d"` that both carry `chunk_id = "d_0"`;
and a caller metadata entry `{"chunk_id": "x"}` is splatted over the
generated id, so a single two-chunk ingest run stores the chunk id `"x"`
twice.  Both violate the claimed uniqueness. -/
theorem C3_counterexample :
    ((runOps emptyState [Op.index "d" [cW] [[(1 : ℚ)]] [] none 1,
        Op.index "d" [cW] [[(1 : ℚ)]] [] none 1]).map (fun s => chunkIdsOf s "d") =
      some [some (PyVal.str "d_0"), some (PyVal.str "d_0")] ∧
      ¬ List.Pairwise (fun a b => a ≠ b)
        ([some (PyVal.str "d_0"), some (PyVal.str "d_0")] : List (Option PyVal))) ∧
    (chunkIdsOf (index_document emptyState "d" [cW, cW] [[(1 : ℚ)], [(1 : ℚ)]]
        [("chunk_id", PyVal.str "x")] none 1) "d" =
      [some (PyVal.str "x"), some (PyVal.str "x")] ∧
      ¬ List.Pairwise (fun a b => a ≠ b)
        ([some (PyVal.str "x"), some (PyVal.str "x")] : List (Option PyVal))) := by
  refine ⟨⟨rfl, ?_⟩, rfl, ?_⟩
  · intro h
    exact (List.pairwise_cons.mp h).1 _ (List.mem_cons_self _ _) rfl
  · intro h
    exact (List.pairwise_cons.mp h).1 _ (List.mem_cons_self _ _) rfl

/-- Witness for `C3_chunk_id_uniqueness` on a concrete run. -/
theorem C3_chunk_id_uniqueness_witness :
    (∀ dd, List.Pairwise (fun a b => a ≠ b)
      (chunkIdsOf (index_document emptyState "d" [cW] [[(1 : ℚ)]] [] none 1) dd)) ∧
      ((index_document emptyState "d" [cW] [[(1 : ℚ)]] [] none 1).metadata.drop
          emptyState.metadata.length).map (fun m => m.lookup "chunk_id") =
        (List.range ([cW].zip [[(1 : ℚ)]]).length).map
          (fun j => some (PyVal.str (mkChunkId "d" j))) :=
  C3_chunk_id_uniqueness [Op.index "d" [cW] [[(1 : ℚ)]] [] none 1]
    (index_document emptyState "d" [cW] [[(1 : ℚ)]] [] none 1)
    emptyState "d" [cW] [[(1 : ℚ)]] [] none 1 rfl rfl (List.not_mem_nil _)

/-- Looking up an excluded key in the filtered metadata bag always fails. -/
lemma evidenceMetadata_lookup_excluded (k : String)
    (hk : evidenceExcluded.contains k = true) :
    ∀ r : List (String × PyVal), (evidenceMetadata r).lookup k = none := by
  intro r
  induction r with
  | nil => rfl
  | cons kv rest ih =>
    simp only [evidenceMetadata, List.filter_cons] at ih ⊢
    by_cases hkv : evidenceExcluded.contains kv.1
    · simp only [hkv]
      exact ih
    · simp only [hkv, Bool.not_false, if_pos]
      show List.lookup k (kv :: _) = none
      have hne : (k == kv.1) = false := by
        apply beq_eq_false_iff_ne.mpr
        intro hc
        rw [← hc] at hkv
        exact hkv hk
      simp only [List.lookup, hne]
      exact ih

/-- Looking up a non-excluded key in the filtered metadata bag agrees with
the raw result dict. -/
lemma evidenceMetadata_lookup_kept (k : String)
    (hk : evidenceExcluded.contains k = false) :
    ∀ r : List (String × PyVal), (evidenceMetadata r).lookup k = r.lookup k := by
  intro r
  induction r with
  | nil => rfl
  | cons kv rest ih =>
    simp only [evidenceMetadata, List.filter_cons] at ih ⊢
    by_cases hkv : evidenceExcluded.contains kv.1
    · simp only [hkv]
      have hne : (k == kv.1) = false := by
        apply beq_eq_false_iff_ne.mpr
        intro hc
        rw [← hc] at hkv
        rw [hk] at hkv
        cases hkv
      show _ = List.lookup k (kv :: rest)
      simp only [List.lookup, hne]
      exact ih
    · simp only [hkv, Bool.not_false, if_pos]
      show List.lookup k (kv :: _) = List.lookup k (kv :: rest)
      by_cases heq : (k == kv.1) = true
      · simp only [List.lookup, heq]
      · simp only [List.lookup, Bool.not_eq_true] at heq ⊢
        simp only [heq]
        exact ih

/-- C9, counterexample: a search-result record carrying the byte offsets
`start_idx`/`end_idx` loses them in the constructed `EvidenceResult`: they
are neither model fields nor metadata entries, contradicting the claim that
byte offsets are retained. -/
theorem C9_counterexample :
    ([("document_id", PyVal.str "d"), ("chunk_id", PyVal.str "d_0"),
      ("text", PyVal.str "hello"), ("start_idx", PyVal.int 0),
      ("end_idx", PyVal.int 5), ("page", PyVal.int 1),
      ("score", PyVal.rat 1)].lookup "start_idx" = some (PyVal.int 0)) ∧
    exposedLookup (mkEvidenceResult
      [("document_id", PyVal.str "d"), ("chunk_id", PyVal.str "d_0"),
       ("text", PyVal.str "hello"), ("start_idx", PyVal.int 0),
       ("end_idx", PyVal.int 5), ("page", PyVal.int 1),
       ("score", PyVal.rat 1)]) "start_idx" = none ∧
    exposedLookup (mkEvidenceResult
      [("document_id", PyVal.str "d"), ("chunk_id", PyVal.str "d_0"),
       ("text", PyVal.str "hello"), ("start_idx", PyVal.int 0),
       ("end_idx", PyVal.int 5), ("page", PyVal.int 1),
       ("score", PyVal.rat 1)]) "end_idx" = none := by
  refine ⟨rfl, rfl, rfl⟩

/-- C9, amended: every evidence result exposes the raw similarity score and
all record metadata except the internal bookkeeping fields, where the byte
offsets `start_idx` and `end_idx` are among the fields stripped (they are
not retained); vector offsets are never stored at all, hence not exposed. -/
theorem C9_evidence_fields (r : List (String × PyVal)) :
    exposedLookup (mkEvidenceResult r) "score" = r.lookup "score" ∧
    exposedLookup (mkEvidenceResult r) "start_idx" = none ∧
    exposedLookup (mkEvidenceResult r) "end_idx" = none ∧
    ∀ k, k ∉ ["document_id", "chunk_id", "text", "page", "score", "title", "authors",
        "year", "source_pdf"] →
      evidenceExcluded.contains k = false →
      exposedLookup (mkEvidenceResult r) k = r.lookup k := by
  refine ⟨rfl, ?_, ?_, ?_⟩
  · show (evidenceMetadata r).lookup "start_idx" = none
    exact evidenceMetadata_lookup_excluded "start_idx" rfl r
  · show (evidenceMetadata r).lookup "end_idx" = none
    exact evidenceMetadata_lookup_excluded "end_idx" rfl r
  · intro k hk hexc
    simp only [List.mem_cons, List.not_mem_nil, or_false, not_or] at hk
    obtain ⟨h1, h2, h3, h4, h5, h6, h7, h8, h9⟩ := hk
    simp only [exposedLookup, mkEvidenceResult, if_neg h1, if_neg h2, if_neg h3, if_neg h4,
      if_neg h5, if_neg h6, if_neg h7, if_neg h8, if_neg h9]
    exact evidenceMetadata_lookup_kept k hexc r

/-- Witness for `C9_evidence_fields` at a concrete result dict. -/
theorem C9_evidence_fields_witness :
    exposedLookup (mkEvidenceResult [("document_id", PyVal.str "d"),
        ("score", PyVal.rat 1), ("year", PyVal.int 2024)]) "score" =
      ([("document_id", PyVal.str "d"), ("score", PyVal.rat 1),
        ("year", PyVal.int 2024)] : List (String × PyVal)).lookup "score" ∧
    exposedLookup (mkEvidenceResult [("document_id", PyVal.str "d"),
        ("score", PyVal.rat 1), ("year", PyVal.int 2024)]) "start_idx" = none ∧
    exposedLookup (mkEvidenceResult [("document_id", PyVal.str "d"),
        ("score", PyVal.rat 1), ("year", PyVal.int 2024)]) "end_idx" = none ∧
    ∀ k, k ∉ ["document_id", "chunk_id", "text", "page", "score", "title", "authors",
        "year", "source_pdf"] →
      evidenceExcluded.contains k = false →
      exposedLookup (mkEvidenceResult [("document_id", PyVal.str "d"),
          ("score", PyVal.rat 1), ("year", PyVal.int 2024)]) k =
        ([("document_id", PyVal.str "d"), ("score", PyVal.rat 1),
          ("year", PyVal.int 2024)] : List (String × PyVal)).lookup k :=
  C9_evidence_fields [("document_id", PyVal.str "d"), ("score", PyVal.rat 1),
    ("year", PyVal.int 2024)]
